import Mathlib

/-!
Verification of the expression parser / TeX renderer in `expression.js`.

The development shallowly embeds the source file:
* the `Token` class and the tokenizing regular expression
  `/[0-9]+(\.[0-9]*)?([eE][\+\-]?[0-9]+)?|[A-Za-z_][A-Za-z_0-9]*|\S/g`,
* the `Expression_*` class hierarchy with its fixed per-variant precedences
  and the `PrettyMath*` rendering methods,
* the recursive-descent `Parser` (`Parse`, `ParseExpr`, `ParseMulExpr`,
  `ParsePowExpr`, `ParseAtom`, `GetNextToken`, `NextTokenIs`, `ExpectToken`).

Thrown JS exceptions become `Except` errors carrying the same `name`,
`message` and (optional) `token` fields.  The recursive-descent parser is
given explicit fuel (a `Nat` that strictly decreases at every call) so that
all definitions are structurally recursive and compute inside the kernel;
`parse` supplies fuel that is far more than sufficient for its token list.
-/

namespace ExprJs

/-- Kind of a token, per the classification in the `Token` constructor. -/
inductive TokenKind where
  | identifier
  | number
  | operator
deriving DecidableEq, Repr

/-- A lexical token: its text, its character index in the source string,
and its kind.  Mirrors the `Token` class. -/
structure Token where
  text : String
  index : Nat
  kind : TokenKind
deriving DecidableEq, Repr

/-- Matches the regex `/^[A-Za-z_]/` used to classify identifier tokens. -/
def isIdentStart (c : Char) : Bool := c.isAlpha || c = '_'

/-- Matches `[A-Za-z_0-9]`, the continuation characters of an identifier. -/
def isIdentChar (c : Char) : Bool := c.isAlpha || c = '_' || c.isDigit

/-- The classification done in the `Token` constructor: a token whose text
starts with `[A-Za-z_]` is an identifier, one starting with `[0-9]` a
number, anything else an operator. -/
def classify (text : String) : TokenKind :=
  match text.data with
  | [] => .operator
  | c :: _ =>
    if isIdentStart c then .identifier
    else if c.isDigit then .number
    else .operator

/-- Builds a token with the classification of the `Token` constructor. -/
def mkToken (text : String) (index : Nat) : Token :=
  ⟨text, index, classify text⟩

/-- ASCII whitespace, the characters matched by the regex class `\s`
(equivalently, skipped because `\S` fails on them).  Non-ASCII whitespace
is out of scope for this development. -/
def isWs (c : Char) : Bool :=
  c = ' ' || c = '\t' || c = '\n' || c = '\r' || c = '\x0b' || c = '\x0c'

/-- Greedy match of the optional exponent part `([eE][\+\-]?[0-9]+)?` of the
numeric-literal regex.  Returns the matched prefix (empty when the exponent
is absent, in particular when no digit follows the marker) and the rest. -/
def munchExp (l : List Char) : List Char × List Char :=
  match l with
  | c :: rest =>
    if c = 'e' || c = 'E' then
      match rest with
      | s :: rest2 =>
        if s = '+' || s = '-' then
          let ds := rest2.takeWhile (·.isDigit)
          if ds.isEmpty then ([], l)
          else (c :: s :: ds, rest2.dropWhile (·.isDigit))
        else
          let ds := rest.takeWhile (·.isDigit)
          if ds.isEmpty then ([], l)
          else (c :: ds, rest.dropWhile (·.isDigit))
      | [] => ([], l)
    else ([], l)
  | [] => ([], [])

/-- Greedy match of the numeric-literal alternative
`[0-9]+(\.[0-9]*)?([eE][\+\-]?[0-9]+)?`, where `c` is the leading digit and
`cs` the remaining characters.  Returns the matched literal and the rest. -/
def munchNumber (c : Char) (cs : List Char) : List Char × List Char :=
  let ds := cs.takeWhile (·.isDigit)
  let r1 := cs.dropWhile (·.isDigit)
  match r1 with
  | c1 :: rest =>
    if c1 = '.' then
      let frac := rest.takeWhile (·.isDigit)
      let r2 := rest.dropWhile (·.isDigit)
      let (ex, r3) := munchExp r2
      (c :: ds ++ '.' :: frac ++ ex, r3)
    else
      let (ex, r3) := munchExp r1
      (c :: ds ++ ex, r3)
  | [] => (c :: ds, [])

/-- The tokenizer loop of the `Parser` constructor: repeatedly match the
regex `/[0-9]+(\.[0-9]*)?([eE][\+\-]?[0-9]+)?|[A-Za-z_][A-Za-z_0-9]*|\S/g`
and turn every match into a `Token` carrying its index.  Whitespace matches
no alternative and is skipped.  The fuel argument only serves termination;
`lexString` supplies the list length, which is always sufficient since each
step consumes at least one character. -/
def lexAux : Nat → List Char → Nat → List Token
  | 0, _, _ => []
  | _ + 1, [], _ => []
  | f + 1, c :: cs, i =>
    if isWs c then lexAux f cs (i + 1)
    else if c.isDigit then
      let (tok, rest) := munchNumber c cs
      mkToken (String.mk tok) i :: lexAux f rest (i + tok.length)
    else if isIdentStart c then
      let tok := c :: cs.takeWhile isIdentChar
      let rest := cs.dropWhile isIdentChar
      mkToken (String.mk tok) i :: lexAux f rest (i + tok.length)
    else
      mkToken (String.mk [c]) i :: lexAux f cs (i + 1)

/-- Tokenizes a whole source string, as the `Parser` constructor does. -/
def lexString (s : String) : List Token :=
  lexAux s.data.length s.data 0

/-- A thrown JS error object: its `name` (`SyntaxError`, `FormatError` or
`InternalError`), its `message`, and the `token` field (which is `null` for
an end-of-input error). -/
structure JsError where
  name : String
  message : String
  token : Option Token
deriving DecidableEq, Repr

/-- Errors of the fueled parser: a faithful JS error, or fuel exhaustion
(which never occurs for the fuel supplied by `parse`). -/
inductive PErr where
  | jsError (e : JsError)
  | outOfFuel
deriving DecidableEq, Repr

/-- The AST: one constructor per `Expression_*` subclass of the source. -/
inductive Expression where
  | add (optoken : Token) (left right : Expression)
  | subtract (optoken : Token) (left right : Expression)
  | multiply (optoken : Token) (left right : Expression)
  | divide (optoken : Token) (left right : Expression)
  | power (optoken : Token) (left right : Expression)
  | negative (optoken : Token) (arg : Expression)
  | identifier (optoken : Token)
  | number (optoken : Token)
  | function (optoken : Token) (arglist : List Expression)
deriving Repr

/-- The fixed precedence each `Expression_*` constructor passes to `super`. -/
def Expression.precedence : Expression → Nat
  | .add _ _ _ => 1
  | .subtract _ _ _ => 1
  | .multiply _ _ _ => 2
  | .divide _ _ _ => 2
  | .power _ _ _ => 4
  | .negative _ _ => 3
  | .identifier _ => 9
  | .number _ => 9
  | .function _ _ => 9

mutual

/-- Applies a token transformation to every token stored in an AST. -/
def Expression.mapTok (g : Token → Token) : Expression → Expression
  | .add t l r => .add (g t) (l.mapTok g) (r.mapTok g)
  | .subtract t l r => .subtract (g t) (l.mapTok g) (r.mapTok g)
  | .multiply t l r => .multiply (g t) (l.mapTok g) (r.mapTok g)
  | .divide t l r => .divide (g t) (l.mapTok g) (r.mapTok g)
  | .power t l r => .power (g t) (l.mapTok g) (r.mapTok g)
  | .negative t a => .negative (g t) (a.mapTok g)
  | .identifier t => .identifier (g t)
  | .number t => .number (g t)
  | .function t args => .function (g t) (mapTokList g args)

/-- Applies a token transformation to every token of a list of ASTs. -/
def mapTokList (g : Token → Token) : List Expression → List Expression
  | [] => []
  | a :: as => a.mapTok g :: mapTokList g as

end

/-- Forgets a token's source index (keeping text and kind). -/
def stripT (t : Token) : Token := ⟨t.text, 0, t.kind⟩

/-- Structural content of an AST: every token index is erased, so two ASTs
are structurally equal exactly when their `strip`s are equal. -/
def Expression.strip (e : Expression) : Expression := e.mapTok stripT

/-- Applies a token transformation to the token of an error, if any. -/
def JsError.mapTok (g : Token → Token) (e : JsError) : JsError :=
  ⟨e.name, e.message, e.token.map g⟩

/-- Applies a token transformation inside a parser error. -/
def PErr.mapTok (g : Token → Token) : PErr → PErr
  | .jsError e => .jsError (e.mapTok g)
  | .outOfFuel => .outOfFuel

/-- Decides whether every `Expression_Function` node of an AST has an
argument list of length exactly one (recursively). -/
def Expression.funcUnary : Expression → Bool
  | .add _ l r => l.funcUnary && r.funcUnary
  | .subtract _ l r => l.funcUnary && r.funcUnary
  | .multiply _ l r => l.funcUnary && r.funcUnary
  | .divide _ l r => l.funcUnary && r.funcUnary
  | .power _ l r => l.funcUnary && r.funcUnary
  | .negative _ a => a.funcUnary
  | .identifier _ => true
  | .number _ => true
  | .function _ args =>
    match args with
    | [a] => a.funcUnary
    | _ => false

/-- The string `'\left(' + s + '\right)'` used for all parenthesization. -/
def wrapParens (s : String) : String := "\\left(" ++ s ++ "\\right)"

/-- Body of `PrettyMath_Binary_LeftAssoc`: parenthesize the left child when
its precedence is strictly below the node's, the right child when its
precedence is lower or equal. -/
def leftAssocText (prec : Nat) (opsymbol : String)
    (left right : Expression) (l r : String) : String :=
  (if left.precedence < prec then wrapParens l else l) ++ opsymbol ++
    (if right.precedence ≤ prec then wrapParens r else r)

/-- Body of `PrettyMath_Binary_RightAssoc`: parenthesize the left child when
its precedence is lower or equal; parenthesize the right child when its
precedence is strictly lower, otherwise wrap it in braces. -/
def rightAssocText (prec : Nat) (optext : String)
    (left right : Expression) (l r : String) : String :=
  (if left.precedence ≤ prec then wrapParens l else l) ++ optext ++
    (if right.precedence < prec then wrapParens r else "\x7b" ++ r ++ "\x7d")

/-- The 48 keys of the `GreekLetters` object literal. -/
def GreekLetters : List String :=
  ["alpha", "beta", "gamma", "delta",
   "epsilon", "zeta", "eta", "theta",
   "iota", "kappa", "lambda", "mu",
   "nu", "xi", "omicron", "pi",
   "rho", "sigma", "tau", "upsilon",
   "phi", "chi", "psi", "omega",
   "Alpha", "Beta", "Gamma", "Delta",
   "Epsilon", "Zeta", "Eta", "Theta",
   "Iota", "Kappa", "Lambda", "Mu",
   "Nu", "Xi", "Omicron", "Pi",
   "Rho", "Sigma", "Tau", "Upsilon",
   "Phi", "Chi", "Psi", "Omega"]

/-- Property names a plain JS object literal inherits from
`Object.prototype`.  The source reads `GreekLetters[this.optoken.text]`,
which walks the prototype chain, and every one of these inherited
properties is a function or an object, hence truthy. -/
def objectPrototypeProps : List String :=
  ["constructor", "hasOwnProperty", "isPrototypeOf", "propertyIsEnumerable",
   "toLocaleString", "toString", "valueOf", "__defineGetter__",
   "__defineSetter__", "__lookupGetter__", "__lookupSetter__", "__proto__"]

/-- Truthiness of the JS property lookup `GreekLetters[text]`: true for the
48 own keys (whose values are the literal `true`) and for the properties
inherited from `Object.prototype` (functions and objects, all truthy). -/
def greekLookupTruthy (text : String) : Bool :=
  text ∈ GreekLetters || text ∈ objectPrototypeProps

/-- Matches the regex `/^[a-zA-Z]$/`: a single Latin letter. -/
def isSingleLatinLetter (text : String) : Bool :=
  match text.data with
  | [c] => c.isAlpha
  | _ => false

/-- Rendering of a `Expression_Number` token text: the source matches
`/^([^eE]+)[eE](.*)$/` and, on a match, renders scientific notation as
`mantissa \times 10^{exponent}`; otherwise it returns the text verbatim. -/
def renderNumberText (text : String) : String :=
  let pre := text.data.takeWhile (fun c => !(c = 'e' || c = 'E'))
  let rest := text.data.dropWhile (fun c => !(c = 'e' || c = 'E'))
  match rest with
  | _ :: expPart =>
    if pre.isEmpty then text
    else String.mk pre ++ " \\times 10^\x7b" ++ String.mk expPart ++ "\x7d"
  | [] => text

/-- The FormatError thrown by `PrettyMath_SingleArg` when the argument list
does not have length one. -/
def singleArgError (optoken : Token) : JsError :=
  ⟨"FormatError",
   "The function \"" ++ optoken.text ++ "\" requires exactly one argument.",
   some optoken⟩

/-- The `PrettyMath` methods of all `Expression_*` subclasses, dispatching
on the variant.  Errors propagate exactly as thrown JS exceptions do: the
left child is rendered before the right one. -/
def Expression.prettyMath : Expression → Except JsError String
  | .add optoken left right =>
    match left.prettyMath, right.prettyMath with
    | .ok l, .ok r => .ok (leftAssocText 1 optoken.text left right l r)
    | .error e, _ => .error e
    | _, .error e => .error e
  | .subtract optoken left right =>
    match left.prettyMath, right.prettyMath with
    | .ok l, .ok r => .ok (leftAssocText 1 optoken.text left right l r)
    | .error e, _ => .error e
    | _, .error e => .error e
  | .multiply _ left right =>
    match left.prettyMath, right.prettyMath with
    | .ok l, .ok r => .ok (leftAssocText 2 " " left right l r)
    | .error e, _ => .error e
    | _, .error e => .error e
  | .divide _ left right =>
    match left.prettyMath, right.prettyMath with
    | .ok l, .ok r => .ok ("\\frac\x7b" ++ l ++ "\x7d\x7b" ++ r ++ "\x7d")
    | .error e, _ => .error e
    | _, .error e => .error e
  | .power optoken left right =>
    match left.prettyMath, right.prettyMath with
    | .ok l, .ok r => .ok (rightAssocText 4 optoken.text left right l r)
    | .error e, _ => .error e
    | _, .error e => .error e
  | .negative _ arg =>
    match arg.prettyMath with
    | .ok s =>
      if arg.precedence < 3 then .ok ("-" ++ wrapParens s)
      else .ok ("-" ++ s)
    | .error e => .error e
  | .identifier optoken =>
    if isSingleLatinLetter optoken.text then .ok optoken.text
    else if greekLookupTruthy optoken.text then .ok ("\\" ++ optoken.text)
    else .error ⟨"FormatError",
      "The identifier " ++ optoken.text ++
        " is not valid. Must be a Latin letter or the name of a Greek letter.",
      some optoken⟩
  | .number optoken => .ok (renderNumberText optoken.text)
  | .function optoken arglist =>
    if optoken.text = "sqrt" then
      match arglist with
      | [arg] =>
        match arg.prettyMath with
        | .ok s => .ok ("\\sqrt\x7b" ++ s ++ "\x7d")
        | .error e => .error e
      | _ => .error (singleArgError optoken)
    else if optoken.text = "abs" then
      match arglist with
      | [arg] =>
        match arg.prettyMath with
        | .ok s => .ok ("\\left|" ++ s ++ "\\right|")
        | .error e => .error e
      | _ => .error (singleArgError optoken)
    else if optoken.text = "cos" || optoken.text = "sin" then
      match arglist with
      | [arg] =>
        match arg.prettyMath with
        | .ok s => .ok ("\\" ++ optoken.text ++ "\\left(" ++ s ++ "\\right)")
        | .error e => .error e
      | _ => .error (singleArgError optoken)
    else
      .error ⟨"FormatError",
        "Unknown function \"" ++ optoken.text ++ "\"", some optoken⟩

/-- The method `NextTokenIs`: when the next token's text is in the list,
consume and return it; otherwise leave the stream unchanged. -/
def nextTokenIs (valid : List String) : List Token → Option (Token × List Token)
  | [] => none
  | t :: rest => if t.text ∈ valid then some (t, rest) else none

/-- The method `GetNextToken`: consume the next token, or throw the
`SyntaxError` `Unexpected end of expression` with a `null` token. -/
def getNextToken : List Token → Except PErr (Token × List Token)
  | [] => .error (.jsError ⟨"SyntaxError", "Unexpected end of expression", none⟩)
  | t :: rest => .ok (t, rest)

/-- The method `ExpectToken`: consume the next token when its text matches,
otherwise throw `Expected "text"` carrying the found token (or `null` at
end of input). -/
def expectToken (text : String) : List Token → Except PErr (Token × List Token)
  | [] => .error (.jsError ⟨"SyntaxError", "Expected \"" ++ text ++ "\"", none⟩)
  | t :: rest =>
    if t.text = text then .ok (t, rest)
    else .error (.jsError ⟨"SyntaxError", "Expected \"" ++ text ++ "\"", some t⟩)

/-- The loop `while (this.NextTokenIs(['+'])) {}` opening `ParsePowExpr`:
discard any leading `+` tokens. -/
def skipPlus : List Token → List Token
  | [] => []
  | t :: rest => if t.text = "+" then skipPlus rest else t :: rest

mutual

/-- The method `ParseExpr`: `expr ::= mulexpr { addop mulexpr }`. -/
def parseExpr : Nat → List Token → Except PErr (Expression × List Token)
  | 0, _ => .error .outOfFuel
  | f + 1, toks =>
    match parseMulExpr f toks with
    | .error e => .error e
    | .ok (expr, rest) => parseExprLoop f expr rest

/-- The `while` loop of `ParseExpr`, folding `+`/`-` left-associatively. -/
def parseExprLoop : Nat → Expression → List Token → Except PErr (Expression × List Token)
  | 0, _, _ => .error .outOfFuel
  | f + 1, expr, toks =>
    match nextTokenIs ["+", "-"] toks with
    | none => .ok (expr, toks)
    | some (optoken, rest) =>
      match parseMulExpr f rest with
      | .error e => .error e
      | .ok (right, rest2) =>
        if optoken.text = "+" then
          parseExprLoop f (.add optoken expr right) rest2
        else
          parseExprLoop f (.subtract optoken expr right) rest2

/-- The method `ParseMulExpr`: `mulexpr ::= powexpr { mulop powexpr }`. -/
def parseMulExpr : Nat → List Token → Except PErr (Expression × List Token)
  | 0, _ => .error .outOfFuel
  | f + 1, toks =>
    match parsePowExpr f toks with
    | .error e => .error e
    | .ok (expr, rest) => parseMulLoop f expr rest

/-- The `while` loop of `ParseMulExpr`, folding `*`/`/` left-associatively. -/
def parseMulLoop : Nat → Expression → List Token → Except PErr (Expression × List Token)
  | 0, _, _ => .error .outOfFuel
  | f + 1, expr, toks =>
    match nextTokenIs ["*", "/"] toks with
    | none => .ok (expr, toks)
    | some (optoken, rest) =>
      match parsePowExpr f rest with
      | .error e => .error e
      | .ok (right, rest2) =>
        if optoken.text = "*" then
          parseMulLoop f (.multiply optoken expr right) rest2
        else
          parseMulLoop f (.divide optoken expr right) rest2

/-- The method `ParsePowExpr`.  Note the faithful double consumption in the
unary-minus branch: `NextTokenIs(['-'])` consumes the `-` token, and then
the inner `const optoken = this.GetNextToken();` (which shadows the outer
`optoken`) consumes the following token as well, using it as the operator
token of the `Expression_Negative` node. -/
def parsePowExpr : Nat → List Token → Except PErr (Expression × List Token)
  | 0, _ => .error .outOfFuel
  | f + 1, toks =>
    let toks1 := skipPlus toks
    match nextTokenIs ["-"] toks1 with
    | some (_, rest) =>
      match getNextToken rest with
      | .error e => .error e
      | .ok (optoken, rest2) =>
        match parsePowExpr f rest2 with
        | .error e => .error e
        | .ok (arg, rest3) => .ok (.negative optoken arg, rest3)
    | none =>
      match parseAtom f toks1 with
      | .error e => .error e
      | .ok (expr, rest) =>
        match nextTokenIs ["^"] rest with
        | some (optoken, rest2) =>
          match parsePowExpr f rest2 with
          | .error e => .error e
          | .ok (right, rest3) => .ok (.power optoken expr right, rest3)
        | none => .ok (expr, rest)

/-- The method `ParseAtom`:
`atom ::= ident [ "(" expr ")" ] | numeric | "(" expr ")"`.  An identifier
followed by `(` takes a single `expr` as its whole argument list. -/
def parseAtom : Nat → List Token → Except PErr (Expression × List Token)
  | 0, _ => .error .outOfFuel
  | f + 1, toks =>
    match getNextToken toks with
    | .error e => .error e
    | .ok (token, rest) =>
      if token.kind = .identifier then
        match nextTokenIs ["("] rest with
        | some (_, rest2) =>
          match parseExpr f rest2 with
          | .error e => .error e
          | .ok (arg, rest3) =>
            match expectToken ")" rest3 with
            | .error e => .error e
            | .ok (_, rest4) => .ok (.function token [arg], rest4)
        | none => .ok (.identifier token, rest)
      else if token.kind = .number then
        .ok (.number token, rest)
      else if token.text = "(" then
        match parseExpr f rest with
        | .error e => .error e
        | .ok (expr, rest2) =>
          match expectToken ")" rest2 with
          | .error e => .error e
          | .ok (_, rest3) => .ok (expr, rest3)
      else
        .error (.jsError ⟨"SyntaxError",
          "Expected identifier, number, function, or parenthesized expression.",
          some token⟩)

end

/-- The method `Parse`: parse a top-level `expr`, then fail with a
`SyntaxError` carrying the first unconsumed token if any token remains. -/
def parserParse (f : Nat) (toks : List Token) : Except PErr Expression :=
  match parseExpr f toks with
  | .error e => .error e
  | .ok (expr, rest) =>
    match rest with
    | [] => .ok expr
    | t :: _ => .error (.jsError ⟨"SyntaxError", "Syntax error", some t⟩)

/-- Fuel that is always sufficient for `parserParse` on the given tokens:
between consecutive fuel ticks the parser consumes a token at least every
four nested calls. -/
def fuelFor (toks : List Token) : Nat := 8 * toks.length + 8

/-- The parse stage of the page's click handler: tokenize the input string
with the `Parser` constructor, then run `Parse`. -/
def parse (s : String) : Except PErr Expression :=
  let toks := lexString s
  parserParse (fuelFor toks) toks

/-- The whole pipeline of the click handler: `Parse` followed by
`PrettyMath` on the resulting AST. -/
def parseAndRender (s : String) : Except PErr String :=
  match parse s with
  | .error e => .error e
  | .ok expr =>
    match expr.prettyMath with
    | .error je => .error (.jsError je)
    | .ok text => .ok text

/-! ### Character-class facts -/

theorem ws_chars {c : Char} (h : isWs c = true) :
    c = ' ' ∨ c = '\t' ∨ c = '\n' ∨ c = '\r' ∨ c = '\x0b' ∨ c = '\x0c' := by
  simp only [isWs, Bool.or_eq_true, decide_eq_true_eq] at h
  tauto

theorem not_ws_of_digit {c : Char} (h : c.isDigit = true) : isWs c = false := by
  cases hw : isWs c with
  | false => rfl
  | true =>
    rcases ws_chars hw with h1 | h1 | h1 | h1 | h1 | h1 <;> subst h1 <;>
      exact absurd h (by decide)

theorem not_ws_of_identChar {c : Char} (h : isIdentChar c = true) : isWs c = false := by
  cases hw : isWs c with
  | false => rfl
  | true =>
    rcases ws_chars hw with h1 | h1 | h1 | h1 | h1 | h1 <;> subst h1 <;>
      exact absurd h (by decide)

theorem dropWhile_length_le (p : α → Bool) : ∀ l : List α, (l.dropWhile p).length ≤ l.length
  | [] => Nat.le_refl 0
  | a :: l => by
    by_cases h : p a
    · rw [List.dropWhile_cons_of_pos h]
      exact Nat.le_succ_of_le (dropWhile_length_le p l)
    · rw [List.dropWhile_cons_of_neg h]

theorem takeWhile_append_not {p : α → Bool} {c : α} (hc : p c = false) :
    ∀ (l l2 : List α), (l ++ c :: l2).takeWhile p = l.takeWhile p
  | [], l2 => by simp [List.takeWhile_cons, hc]
  | a :: l, l2 => by
    by_cases h : p a
    · simp only [List.cons_append, List.takeWhile_cons_of_pos h,
        takeWhile_append_not hc l l2]
    · simp only [List.cons_append, List.takeWhile_cons_of_neg h]

theorem dropWhile_append_not {p : α → Bool} {c : α} (hc : p c = false) :
    ∀ (l l2 : List α), (l ++ c :: l2).dropWhile p = l.dropWhile p ++ c :: l2
  | [], l2 => by simp [List.dropWhile_cons, hc]
  | a :: l, l2 => by
    by_cases h : p a
    · simp only [List.cons_append, List.dropWhile_cons_of_pos h,
        dropWhile_append_not hc l l2]
    · simp only [List.cons_append, List.dropWhile_cons_of_neg h]

theorem munchExp_partition (l : List Char) : (munchExp l).1 ++ (munchExp l).2 = l := by
  rw [munchExp.eq_def]
  rcases l with _ | ⟨c, rest⟩
  · rfl
  · by_cases hc : (c = 'e' || c = 'E') = true
    · simp only [hc, if_true]
      rcases rest with _ | ⟨s, rest2⟩
      · rfl
      · by_cases hs : (s = '+' || s = '-') = true
        · simp only [hs, if_true]
          by_cases hd : ((rest2.takeWhile (·.isDigit)).isEmpty) = true
          · simp only [hd, if_true]; rfl
          · simp only [hd, Bool.false_eq_true, if_false]
            simp [List.takeWhile_append_dropWhile]
        · rw [Bool.not_eq_true] at hs
          simp only [hs, Bool.false_eq_true, if_false]
          by_cases hd : (((s :: rest2).takeWhile (·.isDigit)).isEmpty) = true
          · simp only [hd, if_true]; rfl
          · simp only [hd, Bool.false_eq_true, if_false]
            simp [List.takeWhile_append_dropWhile]
    · rw [Bool.not_eq_true] at hc
      simp only [hc, Bool.false_eq_true, if_false]
      rfl

theorem munchNumber_partition (c : Char) (cs : List Char) :
    (munchNumber c cs).1 ++ (munchNumber c cs).2 = c :: cs := by
  have hsplit : cs.takeWhile (·.isDigit) ++ cs.dropWhile (·.isDigit) = cs :=
    List.takeWhile_append_dropWhile (fun x => x.isDigit) cs
  rw [munchNumber.eq_def]
  rcases h1 : cs.dropWhile (·.isDigit) with _ | ⟨c1, rest⟩
  · rw [h1]
    conv_rhs => rw [← hsplit, h1]
    simp
  · rw [h1]
    by_cases hdot : c1 = '.'
    · simp only [hdot, if_true]
      rcases h2 : munchExp (rest.dropWhile (·.isDigit)) with ⟨ex, r3⟩
      have hp := munchExp_partition (rest.dropWhile (·.isDigit))
      rw [h2] at hp
      subst hdot
      conv_rhs => rw [← hsplit, h1]
      simp only [List.cons_append, List.append_assoc]
      rw [hp]
      simp [List.takeWhile_append_dropWhile]
    · simp only [hdot, if_false]
      rcases h2 : munchExp (c1 :: rest) with ⟨ex, r3⟩
      have hp := munchExp_partition (c1 :: rest)
      rw [h2] at hp
      conv_rhs => rw [← hsplit, h1]
      simp only [List.cons_append, List.append_assoc]
      rw [hp]

theorem munchNumber_fst_cons (c : Char) (cs : List Char) :
    ∃ t, (munchNumber c cs).1 = c :: t := by
  rw [munchNumber.eq_def]
  rcases h1 : cs.dropWhile (·.isDigit) with _ | ⟨c1, rest⟩
  · rw [h1]; exact ⟨_, rfl⟩
  · rw [h1]
    by_cases hdot : c1 = '.'
    · simp only [hdot, if_true]
      rcases h2 : munchExp (rest.dropWhile (·.isDigit)) with ⟨ex, r3⟩
      exact ⟨_, rfl⟩
    · simp only [hdot, if_false]
      rcases h2 : munchExp (c1 :: rest) with ⟨ex, r3⟩
      exact ⟨_, rfl⟩

theorem munchNumber_length_le (c : Char) (cs : List Char) :
    (munchNumber c cs).2.length ≤ cs.length := by
  have hp := munchNumber_partition c cs
  obtain ⟨t, ht⟩ := munchNumber_fst_cons c cs
  have hlen : (munchNumber c cs).1.length + (munchNumber c cs).2.length = cs.length + 1 := by
    rw [← List.length_append, hp, List.length_cons]
  rw [ht, List.length_cons] at hlen
  omega

theorem munchExp_nonws (l : List Char) :
    ∀ x ∈ (munchExp l).1, isWs x = false := by
  rw [munchExp.eq_def]
  rcases l with _ | ⟨c, rest⟩
  · intro x hx; exact absurd hx (by simp)
  · by_cases hc : (c = 'e' || c = 'E') = true
    · have hcw : isWs c = false := by
        rcases Bool.or_eq_true_iff.mp hc with h | h <;>
          · rw [decide_eq_true_eq] at h; subst h; decide
      simp only [hc, if_true]
      rcases rest with _ | ⟨s, rest2⟩
      · intro x hx; exact absurd hx (by simp)
      · by_cases hs : (s = '+' || s = '-') = true
        · have hsw : isWs s = false := by
            rcases Bool.or_eq_true_iff.mp hs with h | h <;>
              · rw [decide_eq_true_eq] at h; subst h; decide
          simp only [hs, if_true]
          by_cases hd : ((rest2.takeWhile (·.isDigit)).isEmpty) = true
          · simp only [hd, if_true]; intro x hx; exact absurd hx (by simp)
          · simp only [hd, Bool.false_eq_true, if_false]
            intro x hx
            rcases List.mem_cons.mp hx with rfl | hx
            · exact hcw
            rcases List.mem_cons.mp hx with rfl | hx
            · exact hsw
            · exact not_ws_of_digit (List.mem_takeWhile_imp hx)
        · rw [Bool.not_eq_true] at hs
          simp only [hs, Bool.false_eq_true, if_false]
          by_cases hd : (((s :: rest2).takeWhile (·.isDigit)).isEmpty) = true
          · simp only [hd, if_true]; intro x hx; exact absurd hx (by simp)
          · simp only [hd, Bool.false_eq_true, if_false]
            intro x hx
            rcases List.mem_cons.mp hx with rfl | hx
            · exact hcw
            · exact not_ws_of_digit (List.mem_takeWhile_imp hx)
    · rw [Bool.not_eq_true] at hc
      simp only [hc, Bool.false_eq_true, if_false]
      intro x hx; exact absurd hx (by simp)

theorem munchNumber_nonws (c : Char) (cs : List Char) (hc : isWs c = false) :
    ∀ x ∈ (munchNumber c cs).1, isWs x = false := by
  rw [munchNumber.eq_def]
  rcases h1 : cs.dropWhile (·.isDigit) with _ | ⟨c1, rest⟩
  · rw [h1]
    intro x hx
    rcases List.mem_cons.mp hx with rfl | hx
    · exact hc
    · exact not_ws_of_digit (List.mem_takeWhile_imp hx)
  · rw [h1]
    by_cases hdot : c1 = '.'
    · simp only [hdot, if_true]
      rcases h2 : munchExp (rest.dropWhile (·.isDigit)) with ⟨ex, r3⟩
      intro x hx
      rcases List.mem_cons.mp hx with rfl | hx
      · exact hc
      rcases List.mem_append.mp hx with hx | hx
      · rcases List.mem_append.mp hx with hx | hx
        · exact not_ws_of_digit (List.mem_takeWhile_imp hx)
        · rcases List.mem_cons.mp hx with rfl | hx
          · decide
          · exact not_ws_of_digit (List.mem_takeWhile_imp hx)
      · have h3 := munchExp_nonws (rest.dropWhile (·.isDigit)) x
        rw [h2] at h3
        exact h3 hx
    · simp only [hdot, if_false]
      rcases h2 : munchExp (c1 :: rest) with ⟨ex, r3⟩
      intro x hx
      rcases List.mem_cons.mp hx with rfl | hx
      · exact hc
      rcases List.mem_append.mp hx with hx | hx
      · exact not_ws_of_digit (List.mem_takeWhile_imp hx)
      · have h3 := munchExp_nonws (c1 :: rest) x
        rw [h2] at h3
        exact h3 hx

/-! ### Facts about the tokenizer -/

theorem lexAux_nil : ∀ (f i : Nat), lexAux f [] i = []
  | 0, _ => rfl
  | _ + 1, _ => rfl

/-- Concatenating the texts of all tokens recovers exactly the
non-whitespace characters of the input, in order: the lexer never fails and
never drops a non-whitespace character. -/
theorem lexAux_flatten : ∀ (f : Nat) (cs : List Char) (i : Nat), cs.length ≤ f →
    ((lexAux f cs i).map (fun t => t.text.data)).flatten = cs.filter (fun c => !isWs c) := by
  intro f
  induction f with
  | zero =>
    intro cs i h
    have hnil : cs = [] := List.length_eq_zero.mp (Nat.le_zero.mp h)
    subst hnil
    rfl
  | succ f ih =>
    intro cs i h
    cases cs with
    | nil => rfl
    | cons c cs' =>
      have hlen : cs'.length ≤ f := by
        simpa using Nat.le_of_succ_le_succ h
      simp only [lexAux]
      by_cases hw : isWs c = true
      · rw [if_pos hw, ih cs' (i + 1) hlen, List.filter_cons]
        simp [hw]
      · rw [Bool.not_eq_true] at hw
        rw [if_neg (by simp [hw])]
        by_cases hd : c.isDigit = true
        · rw [if_pos hd]
          rcases hmn : munchNumber c cs' with ⟨tok, rest⟩
          have hp : tok ++ rest = c :: cs' := by
            have := munchNumber_partition c cs'
            rwa [hmn] at this
          have hrest : rest.length ≤ f := by
            have h0 := munchNumber_length_le c cs'
            rw [hmn] at h0
            exact Nat.le_trans h0 hlen
          have hnws : ∀ x ∈ tok, isWs x = false := by
            have := munchNumber_nonws c cs' hw
            rwa [hmn] at this
          simp only [List.map_cons, List.flatten_cons]
          rw [ih rest _ hrest, ← hp, List.filter_append]
          have : tok.filter (fun x => !isWs x) = tok :=
            List.filter_eq_self.mpr (fun a ha => by simp [hnws a ha])
          rw [this]
          rfl
        · rw [if_neg hd]
          by_cases hs : isIdentStart c = true
          · rw [if_pos hs]
            have hp : (c :: cs'.takeWhile isIdentChar) ++ cs'.dropWhile isIdentChar
                = c :: cs' := by
              simp [List.takeWhile_append_dropWhile]
            have hrest : (cs'.dropWhile isIdentChar).length ≤ f :=
              Nat.le_trans (dropWhile_length_le _ _) hlen
            have hnws : ∀ x ∈ c :: cs'.takeWhile isIdentChar, isWs x = false := by
              intro x hx
              rcases List.mem_cons.mp hx with rfl | hx
              · exact hw
              · exact not_ws_of_identChar (List.mem_takeWhile_imp hx)
            simp only [List.map_cons, List.flatten_cons]
            rw [ih _ _ hrest, ← hp, List.filter_append]
            have : (c :: cs'.takeWhile isIdentChar).filter (fun x => !isWs x)
                = c :: cs'.takeWhile isIdentChar :=
              List.filter_eq_self.mpr (fun a ha => by simp [hnws a ha])
            rw [this]
            rfl
          · rw [if_neg hs]
            simp only [List.map_cons, List.flatten_cons]
            rw [ih cs' (i + 1) hlen, List.filter_cons]
            simp [hw]
            rfl

theorem munchExp_append_close (l : List Char) :
    munchExp (l ++ [')']) = ((munchExp l).1, (munchExp l).2 ++ [')']) := by
  have hdig : ((')').isDigit) = false := by decide
  have hdig' : ((fun x => Char.isDigit x) ')') = false := hdig
  rcases l with _ | ⟨c, rest⟩
  · simp [munchExp]
  · simp only [List.cons_append, munchExp.eq_def]
    by_cases hc : (c = 'e' || c = 'E') = true
    · simp only [hc, if_true]
      rcases rest with _ | ⟨s, rest2⟩
      · simp only [List.nil_append]
        simp [hdig]
      · simp only [List.cons_append]
        by_cases hs : (s = '+' || s = '-') = true
        · simp only [hs, if_true]
          rw [takeWhile_append_not hdig' rest2 [], dropWhile_append_not hdig' rest2 []]
          by_cases hd : ((rest2.takeWhile (·.isDigit)).isEmpty) = true
          · simp [hd]
          · simp [hd]
        · rw [Bool.not_eq_true] at hs
          simp only [hs, Bool.false_eq_true, if_false]
          have h1 : List.takeWhile (fun x => x.isDigit) (s :: (rest2 ++ [')']))
              = List.takeWhile (fun x => x.isDigit) (s :: rest2) := by
            rw [← List.cons_append]
            exact takeWhile_append_not hdig' (s :: rest2) []
          have h2 : List.dropWhile (fun x => x.isDigit) (s :: (rest2 ++ [')']))
              = List.dropWhile (fun x => x.isDigit) (s :: rest2) ++ [')'] := by
            rw [← List.cons_append]
            exact dropWhile_append_not hdig' (s :: rest2) []
          rw [h1, h2]
          by_cases hd : (((s :: rest2).takeWhile (·.isDigit)).isEmpty) = true
          · simp [hd]
          · simp [hd]
    · rw [Bool.not_eq_true] at hc
      simp only [hc, Bool.false_eq_true, if_false]
      simp

theorem munchNumber_append_close (c : Char) (cs : List Char) :
    munchNumber c (cs ++ [')'])
      = ((munchNumber c cs).1, (munchNumber c cs).2 ++ [')']) := by
  have hdig : ((')').isDigit) = false := by decide
  have hdig' : ((fun x => Char.isDigit x) ')') = false := hdig
  rw [munchNumber.eq_def, munchNumber.eq_def]
  rw [takeWhile_append_not hdig' cs [], dropWhile_append_not hdig' cs []]
  rcases h1 : cs.dropWhile (·.isDigit) with _ | ⟨c1, rest⟩
  · rw [h1]
    simp [munchExp]
  · rw [h1]
    simp only [List.cons_append]
    by_cases hdot : c1 = '.'
    · simp only [hdot, if_true]
      rw [takeWhile_append_not hdig' rest [], dropWhile_append_not hdig' rest []]
      rw [munchExp_append_close (rest.dropWhile (·.isDigit))]
    · simp only [hdot, Bool.false_eq_true, if_false]
      have h3 := munchExp_append_close (c1 :: rest)
      rw [List.cons_append] at h3
      rw [h3]


theorem lexAux_append_close : ∀ (f : Nat) (cs : List Char) (i : Nat), cs.length < f →
    lexAux f (cs ++ [')']) i = lexAux f cs i ++ [mkToken ")" (i + cs.length)] := by
  intro f
  induction f with
  | zero => intro cs i h; exact absurd h (Nat.not_lt_zero _)
  | succ f ih =>
    intro cs i h
    cases cs with
    | nil =>
      simp only [List.nil_append, lexAux, lexAux_nil]
      rw [if_neg (by decide), if_neg (by decide), if_neg (by decide)]
      simp [lexAux_nil]
    | cons c cs' =>
      have h' : cs'.length < f := by
        have := h; simp only [List.length_cons] at this; omega
      simp only [List.cons_append, lexAux, List.append_eq]
      by_cases hw : isWs c = true
      · rw [if_pos hw, if_pos hw, ih cs' (i + 1) h']
        have hidx : i + 1 + cs'.length = i + (c :: cs').length := by
          simp [List.length_cons]; omega
        rw [hidx]
      · rw [if_neg hw, if_neg hw]
        by_cases hd : c.isDigit = true
        · rw [if_pos hd, if_pos hd]
          rcases hmn : munchNumber c cs' with ⟨tok, rest⟩
          have hmA := munchNumber_append_close c cs'
          rw [hmn] at hmA
          rw [hmA]
          have hrest : rest.length < f := by
            have h0 := munchNumber_length_le c cs'
            rw [hmn] at h0
            exact Nat.lt_of_le_of_lt h0 h'
          rw [ih rest (i + tok.length) hrest]
          have hlen2 : tok.length + rest.length = cs'.length + 1 := by
            have hp := munchNumber_partition c cs'
            rw [hmn] at hp
            have := congrArg List.length hp
            simpa [List.length_append, Nat.add_comm] using this
          have hidx : i + tok.length + rest.length = i + (c :: cs').length := by
            simp only [List.length_cons]; omega
          rw [hidx]
          simp
        · rw [if_neg hd, if_neg hd]
          by_cases hst : isIdentStart c = true
          · rw [if_pos hst, if_pos hst]
            rw [takeWhile_append_not (by decide : isIdentChar ')' = false) cs' [],
              dropWhile_append_not (by decide : isIdentChar ')' = false) cs' []]
            have hrest : (cs'.dropWhile isIdentChar).length < f :=
              Nat.lt_of_le_of_lt (dropWhile_length_le _ _) h'
            rw [ih _ _ hrest]
            have hlen2 : (c :: cs'.takeWhile isIdentChar).length
                + (cs'.dropWhile isIdentChar).length = cs'.length + 1 := by
              have hp := congrArg List.length
                (List.takeWhile_append_dropWhile isIdentChar cs')
              rw [List.length_append] at hp
              simp only [List.length_cons]
              omega
            have hidx : i + (c :: cs'.takeWhile isIdentChar).length
                + (cs'.dropWhile isIdentChar).length = i + (c :: cs').length := by
              simp only [List.length_cons] at hlen2 ⊢
              omega
            rw [hidx]
            simp
          · rw [if_neg hst, if_neg hst, ih cs' (i + 1) h']
            have hidx : i + 1 + cs'.length = i + (c :: cs').length := by
              simp [List.length_cons]; omega
            rw [hidx]
            simp

theorem lexAux_strip_offset : ∀ (f : Nat) (cs : List Char) (i j : Nat),
    (lexAux f cs i).map stripT = (lexAux f cs j).map stripT := by
  intro f
  induction f with
  | zero => intro cs i j; rfl
  | succ f ih =>
    intro cs i j
    cases cs with
    | nil => rfl
    | cons c cs' =>
      simp only [lexAux]
      by_cases hw : isWs c = true
      · rw [if_pos hw, if_pos hw]
        exact ih cs' (i + 1) (j + 1)
      · rw [if_neg hw, if_neg hw]
        by_cases hd : c.isDigit = true
        · rw [if_pos hd, if_pos hd]
          rcases hmn : munchNumber c cs' with ⟨tok, rest⟩
          simp only [List.map_cons]
          rw [ih rest (i + tok.length) (j + tok.length)]
          rfl
        · rw [if_neg hd, if_neg hd]
          by_cases hst : isIdentStart c = true
          · rw [if_pos hst, if_pos hst]
            simp only [List.map_cons]
            rw [ih _ (i + (c :: cs'.takeWhile isIdentChar).length)
              (j + (c :: cs'.takeWhile isIdentChar).length)]
            rfl
          · rw [if_neg hst, if_neg hst]
            simp only [List.map_cons]
            rw [ih cs' (i + 1) (j + 1)]
            rfl

theorem lexAux_fuel : ∀ (f f' : Nat) (cs : List Char) (i : Nat),
    cs.length ≤ f → cs.length ≤ f' → lexAux f cs i = lexAux f' cs i := by
  intro f
  induction f with
  | zero =>
    intro f' cs i h h'
    have hnil : cs = [] := List.length_eq_zero.mp (Nat.le_zero.mp h)
    subst hnil
    rw [lexAux_nil, lexAux_nil]
  | succ f ih =>
    intro f' cs i h h'
    cases cs with
    | nil => rw [lexAux_nil, lexAux_nil]
    | cons c cs' =>
      cases f' with
      | zero => exact absurd h' (by simp)
      | succ f'' =>
        have h1 : cs'.length ≤ f := by simpa using Nat.le_of_succ_le_succ h
        have h1' : cs'.length ≤ f'' := by simpa using Nat.le_of_succ_le_succ h'
        simp only [lexAux]
        by_cases hw : isWs c = true
        · rw [if_pos hw, if_pos hw]
          exact ih f'' cs' (i + 1) h1 h1'
        · rw [if_neg hw, if_neg hw]
          by_cases hd : c.isDigit = true
          · rw [if_pos hd, if_pos hd]
            rcases hmn : munchNumber c cs' with ⟨tok, rest⟩
            have h0 := munchNumber_length_le c cs'
            rw [hmn] at h0
            rw [ih f'' rest (i + tok.length) (Nat.le_trans h0 h1) (Nat.le_trans h0 h1')]
          · rw [if_neg hd, if_neg hd]
            by_cases hst : isIdentStart c = true
            · rw [if_pos hst, if_pos hst]
              have h0 : (cs'.dropWhile isIdentChar).length ≤ cs'.length :=
                dropWhile_length_le _ _
              rw [ih f'' _ _ (Nat.le_trans h0 h1) (Nat.le_trans h0 h1')]
            · rw [if_neg hst, if_neg hst]
              rw [ih f'' cs' (i + 1) h1 h1']


/-! ### Fuel monotonicity of the parser -/

/-- All six parser functions at fuel `f`: an `ok` result is preserved when
one more unit of fuel is supplied. -/
def MonoAt (f : Nat) : Prop :=
  (∀ toks res, parseExpr f toks = .ok res → parseExpr (f + 1) toks = .ok res) ∧
  (∀ e toks res, parseExprLoop f e toks = .ok res → parseExprLoop (f + 1) e toks = .ok res) ∧
  (∀ toks res, parseMulExpr f toks = .ok res → parseMulExpr (f + 1) toks = .ok res) ∧
  (∀ e toks res, parseMulLoop f e toks = .ok res → parseMulLoop (f + 1) e toks = .ok res) ∧
  (∀ toks res, parsePowExpr f toks = .ok res → parsePowExpr (f + 1) toks = .ok res) ∧
  (∀ toks res, parseAtom f toks = .ok res → parseAtom (f + 1) toks = .ok res)

theorem monoAt : ∀ f, MonoAt f := by
  intro f
  induction f with
  | zero =>
    refine ⟨?_, ?_, ?_, ?_, ?_, ?_⟩ <;> intros _ _ <;> first
      | (intro h; exact Except.noConfusion h)
      | (intro _ h; exact Except.noConfusion h)
  | succ f ih =>
    obtain ⟨ihE, ihEL, ihM, ihML, ihP, ihA⟩ := ih
    refine ⟨?_, ?_, ?_, ?_, ?_, ?_⟩
    · -- parseExpr
      intro toks res h
      rw [parseExpr] at h ⊢
      cases hm : parseMulExpr f toks with
      | error e => rw [hm] at h; exact Except.noConfusion h
      | ok pr =>
        obtain ⟨e1, r1⟩ := pr
        rw [hm] at h
        rw [ihM _ _ hm]
        exact ihEL _ _ _ h
    · -- parseExprLoop
      intro e toks res h
      rw [parseExprLoop] at h ⊢
      cases hn : nextTokenIs ["+", "-"] toks with
      | none => rw [hn] at h; exact h
      | some pr =>
        obtain ⟨op, rest⟩ := pr
        rw [hn] at h
        dsimp only at h ⊢
        cases hm : parseMulExpr f rest with
        | error e2 => rw [hm] at h; exact Except.noConfusion h
        | ok pr2 =>
          obtain ⟨right, r2⟩ := pr2
          rw [hm] at h
          rw [ihM _ _ hm]
          dsimp only at h ⊢
          by_cases hop : op.text = "+"
          · rw [if_pos hop] at h ⊢; exact ihEL _ _ _ h
          · rw [if_neg hop] at h ⊢; exact ihEL _ _ _ h
    · -- parseMulExpr
      intro toks res h
      rw [parseMulExpr] at h ⊢
      cases hm : parsePowExpr f toks with
      | error e => rw [hm] at h; exact Except.noConfusion h
      | ok pr =>
        obtain ⟨e1, r1⟩ := pr
        rw [hm] at h
        rw [ihP _ _ hm]
        exact ihML _ _ _ h
    · -- parseMulLoop
      intro e toks res h
      rw [parseMulLoop] at h ⊢
      cases hn : nextTokenIs ["*", "/"] toks with
      | none => rw [hn] at h; exact h
      | some pr =>
        obtain ⟨op, rest⟩ := pr
        rw [hn] at h
        dsimp only at h ⊢
        cases hm : parsePowExpr f rest with
        | error e2 => rw [hm] at h; exact Except.noConfusion h
        | ok pr2 =>
          obtain ⟨right, r2⟩ := pr2
          rw [hm] at h
          rw [ihP _ _ hm]
          dsimp only at h ⊢
          by_cases hop : op.text = "*"
          · rw [if_pos hop] at h ⊢; exact ihML _ _ _ h
          · rw [if_neg hop] at h ⊢; exact ihML _ _ _ h
    · -- parsePowExpr
      intro toks res h
      rw [parsePowExpr] at h ⊢
      cases hn : nextTokenIs ["-"] (skipPlus toks) with
      | some pr =>
        obtain ⟨m, rest⟩ := pr
        rw [hn] at h
        dsimp only at h ⊢
        cases hg : getNextToken rest with
        | error e => rw [hg] at h; exact Except.noConfusion h
        | ok pr2 =>
          obtain ⟨optoken, rest2⟩ := pr2
          rw [hg] at h
          dsimp only at h ⊢
          cases hp : parsePowExpr f rest2 with
          | error e => rw [hp] at h; exact Except.noConfusion h
          | ok pr3 =>
            obtain ⟨arg, rest3⟩ := pr3
            rw [hp] at h
            rw [ihP _ _ hp]
            exact h
      | none =>
        rw [hn] at h
        dsimp only at h ⊢
        cases ha : parseAtom f (skipPlus toks) with
        | error e => rw [ha] at h; exact Except.noConfusion h
        | ok pr2 =>
          obtain ⟨e1, rest⟩ := pr2
          rw [ha] at h
          rw [ihA _ _ ha]
          dsimp only at h ⊢
          cases hx : nextTokenIs ["^"] rest with
          | none => rw [hx] at h; exact h
          | some pr3 =>
            obtain ⟨op, rest2⟩ := pr3
            rw [hx] at h
            dsimp only at h ⊢
            cases hp : parsePowExpr f rest2 with
            | error e => rw [hp] at h; exact Except.noConfusion h
            | ok pr4 =>
              obtain ⟨right, rest3⟩ := pr4
              rw [hp] at h
              rw [ihP _ _ hp]
              exact h
    · -- parseAtom
      intro toks res h
      rw [parseAtom] at h ⊢
      cases hg : getNextToken toks with
      | error e => rw [hg] at h; exact Except.noConfusion h
      | ok pr =>
        obtain ⟨token, rest⟩ := pr
        rw [hg] at h
        dsimp only at h ⊢
        by_cases hk : token.kind = TokenKind.identifier
        · rw [if_pos hk] at h ⊢
          cases hn : nextTokenIs ["("] rest with
          | some pr2 =>
            obtain ⟨lp, rest2⟩ := pr2
            rw [hn] at h
            dsimp only at h ⊢
            cases he : parseExpr f rest2 with
            | error e => rw [he] at h; exact Except.noConfusion h
            | ok pr3 =>
              obtain ⟨arg, rest3⟩ := pr3
              rw [he] at h
              rw [ihE _ _ he]
              dsimp only at h ⊢
              cases hx : expectToken ")" rest3 with
              | error e => rw [hx] at h; exact Except.noConfusion h
              | ok pr4 =>
                obtain ⟨rp, rest4⟩ := pr4
                rw [hx] at h
                exact h
          | none => rw [hn] at h; exact h
        · rw [if_neg hk] at h ⊢
          by_cases hk2 : token.kind = TokenKind.number
          · rw [if_pos hk2] at h ⊢; exact h
          · rw [if_neg hk2] at h ⊢
            by_cases ht : token.text = "("
            · rw [if_pos ht] at h ⊢
              cases he : parseExpr f rest with
              | error e => rw [he] at h; exact Except.noConfusion h
              | ok pr3 =>
                obtain ⟨e1, rest2⟩ := pr3
                rw [he] at h
                rw [ihE _ _ he]
                dsimp only at h ⊢
                cases hx : expectToken ")" rest2 with
                | error e => rw [hx] at h; exact Except.noConfusion h
                | ok pr4 =>
                  obtain ⟨rp, rest3⟩ := pr4
                  rw [hx] at h
                  exact h
            · rw [if_neg ht] at h ⊢; exact h


/-- Fuel monotonicity for `parseExpr`: an `ok` result is stable under any
larger fuel. -/
theorem parseExpr_mono {f f' : Nat} (hle : f ≤ f') {toks : List Token}
    {res : Expression × List Token} (h : parseExpr f toks = .ok res) :
    parseExpr f' toks = .ok res := by
  induction hle with
  | refl => exact h
  | step ih1 ih2 => exact (monoAt _).1 _ _ ih2

/-! ### Every function node built by the parser has exactly one argument -/

/-- All six parser functions only build ASTs whose `Expression_Function`
nodes carry singleton argument lists (the loop variants additionally assume
this of their accumulator). -/
def FuncUnaryAt (f : Nat) : Prop :=
  (∀ toks e r, parseExpr f toks = .ok (e, r) → e.funcUnary = true) ∧
  (∀ acc toks e r, acc.funcUnary = true → parseExprLoop f acc toks = .ok (e, r) →
    e.funcUnary = true) ∧
  (∀ toks e r, parseMulExpr f toks = .ok (e, r) → e.funcUnary = true) ∧
  (∀ acc toks e r, acc.funcUnary = true → parseMulLoop f acc toks = .ok (e, r) →
    e.funcUnary = true) ∧
  (∀ toks e r, parsePowExpr f toks = .ok (e, r) → e.funcUnary = true) ∧
  (∀ toks e r, parseAtom f toks = .ok (e, r) → e.funcUnary = true)

theorem funcUnaryAt : ∀ f, FuncUnaryAt f := by
  intro f
  induction f with
  | zero =>
    refine ⟨?_, ?_, ?_, ?_, ?_, ?_⟩
    · intro _ _ _ h; exact Except.noConfusion h
    · intro _ _ _ _ _ h; exact Except.noConfusion h
    · intro _ _ _ h; exact Except.noConfusion h
    · intro _ _ _ _ _ h; exact Except.noConfusion h
    · intro _ _ _ h; exact Except.noConfusion h
    · intro _ _ _ h; exact Except.noConfusion h
  | succ f ih =>
    obtain ⟨ihE, ihEL, ihM, ihML, ihP, ihA⟩ := ih
    refine ⟨?_, ?_, ?_, ?_, ?_, ?_⟩
    · -- parseExpr
      intro toks e r h
      rw [parseExpr] at h
      cases hm : parseMulExpr f toks with
      | error e2 => rw [hm] at h; exact Except.noConfusion h
      | ok pr =>
        obtain ⟨e1, r1⟩ := pr
        rw [hm] at h
        exact ihEL _ _ _ _ (ihM _ _ _ hm) h
    · -- parseExprLoop
      intro acc toks e r hacc h
      rw [parseExprLoop] at h
      cases hn : nextTokenIs ["+", "-"] toks with
      | none =>
        rw [hn] at h
        obtain ⟨rfl, rfl⟩ : acc = e ∧ toks = r := by
          refine ⟨?_, ?_⟩ <;> { cases h; rfl }
        exact hacc
      | some pr =>
        obtain ⟨op, rest⟩ := pr
        rw [hn] at h
        dsimp only at h
        cases hm : parseMulExpr f rest with
        | error e2 => rw [hm] at h; exact Except.noConfusion h
        | ok pr2 =>
          obtain ⟨right, r2⟩ := pr2
          rw [hm] at h
          dsimp only at h
          have hr : right.funcUnary = true := ihM _ _ _ hm
          by_cases hop : op.text = "+"
          · rw [if_pos hop] at h
            exact ihEL _ _ _ _ (by simp [Expression.funcUnary, hacc, hr]) h
          · rw [if_neg hop] at h
            exact ihEL _ _ _ _ (by simp [Expression.funcUnary, hacc, hr]) h
    · -- parseMulExpr
      intro toks e r h
      rw [parseMulExpr] at h
      cases hm : parsePowExpr f toks with
      | error e2 => rw [hm] at h; exact Except.noConfusion h
      | ok pr =>
        obtain ⟨e1, r1⟩ := pr
        rw [hm] at h
        exact ihML _ _ _ _ (ihP _ _ _ hm) h
    · -- parseMulLoop
      intro acc toks e r hacc h
      rw [parseMulLoop] at h
      cases hn : nextTokenIs ["*", "/"] toks with
      | none =>
        rw [hn] at h
        obtain ⟨rfl, rfl⟩ : acc = e ∧ toks = r := by
          refine ⟨?_, ?_⟩ <;> { cases h; rfl }
        exact hacc
      | some pr =>
        obtain ⟨op, rest⟩ := pr
        rw [hn] at h
        dsimp only at h
        cases hm : parsePowExpr f rest with
        | error e2 => rw [hm] at h; exact Except.noConfusion h
        | ok pr2 =>
          obtain ⟨right, r2⟩ := pr2
          rw [hm] at h
          dsimp only at h
          have hr : right.funcUnary = true := ihP _ _ _ hm
          by_cases hop : op.text = "*"
          · rw [if_pos hop] at h
            exact ihML _ _ _ _ (by simp [Expression.funcUnary, hacc, hr]) h
          · rw [if_neg hop] at h
            exact ihML _ _ _ _ (by simp [Expression.funcUnary, hacc, hr]) h
    · -- parsePowExpr
      intro toks e r h
      rw [parsePowExpr] at h
      cases hn : nextTokenIs ["-"] (skipPlus toks) with
      | some pr =>
        obtain ⟨m, rest⟩ := pr
        rw [hn] at h
        dsimp only at h
        cases hg : getNextToken rest with
        | error e2 => rw [hg] at h; exact Except.noConfusion h
        | ok pr2 =>
          obtain ⟨optoken, rest2⟩ := pr2
          rw [hg] at h
          dsimp only at h
          cases hp : parsePowExpr f rest2 with
          | error e2 => rw [hp] at h; exact Except.noConfusion h
          | ok pr3 =>
            obtain ⟨arg, rest3⟩ := pr3
            rw [hp] at h
            dsimp only at h
            cases h
            simpa [Expression.funcUnary] using ihP _ _ _ hp
      | none =>
        rw [hn] at h
        dsimp only at h
        cases ha : parseAtom f (skipPlus toks) with
        | error e2 => rw [ha] at h; exact Except.noConfusion h
        | ok pr2 =>
          obtain ⟨e1, rest⟩ := pr2
          rw [ha] at h
          dsimp only at h
          cases hx : nextTokenIs ["^"] rest with
          | none =>
            rw [hx] at h
            cases h
            exact ihA _ _ _ ha
          | some pr3 =>
            obtain ⟨op, rest2⟩ := pr3
            rw [hx] at h
            dsimp only at h
            cases hp : parsePowExpr f rest2 with
            | error e2 => rw [hp] at h; exact Except.noConfusion h
            | ok pr4 =>
              obtain ⟨right, rest3⟩ := pr4
              rw [hp] at h
              dsimp only at h
              cases h
              simp [Expression.funcUnary, ihA _ _ _ ha, ihP _ _ _ hp]
    · -- parseAtom
      intro toks e r h
      rw [parseAtom] at h
      cases hg : getNextToken toks with
      | error e2 => rw [hg] at h; exact Except.noConfusion h
      | ok pr =>
        obtain ⟨token, rest⟩ := pr
        rw [hg] at h
        dsimp only at h
        by_cases hk : token.kind = TokenKind.identifier
        · rw [if_pos hk] at h
          cases hn : nextTokenIs ["("] rest with
          | some pr2 =>
            obtain ⟨lp, rest2⟩ := pr2
            rw [hn] at h
            dsimp only at h
            cases he : parseExpr f rest2 with
            | error e2 => rw [he] at h; exact Except.noConfusion h
            | ok pr3 =>
              obtain ⟨arg, rest3⟩ := pr3
              rw [he] at h
              dsimp only at h
              cases hx : expectToken ")" rest3 with
              | error e2 => rw [hx] at h; exact Except.noConfusion h
              | ok pr4 =>
                obtain ⟨rp, rest4⟩ := pr4
                rw [hx] at h
                dsimp only at h
                cases h
                simpa [Expression.funcUnary] using ihE _ _ _ he
          | none =>
            rw [hn] at h
            cases h
            simp [Expression.funcUnary]
        · rw [if_neg hk] at h
          by_cases hk2 : token.kind = TokenKind.number
          · rw [if_pos hk2] at h
            cases h
            simp [Expression.funcUnary]
          · rw [if_neg hk2] at h
            by_cases ht : token.text = "("
            · rw [if_pos ht] at h
              cases he : parseExpr f rest with
              | error e2 => rw [he] at h; exact Except.noConfusion h
              | ok pr3 =>
                obtain ⟨e1, rest2⟩ := pr3
                rw [he] at h
                dsimp only at h
                cases hx : expectToken ")" rest2 with
                | error e2 => rw [hx] at h; exact Except.noConfusion h
                | ok pr4 =>
                  obtain ⟨rp, rest3⟩ := pr4
                  rw [hx] at h
                  dsimp only at h
                  cases h
                  exact ihE _ _ _ he
            · rw [if_neg ht] at h; exact Except.noConfusion h


/-! ### Appending tokens after a complete parse does not change its result -/

/-- A token that none of the parser's single-token lookaheads accepts. -/
def goodStop (t : Token) : Prop :=
  t.text ∉ (["+", "-", "*", "/", "^", "("] : List String)

/-- A suffix that cannot extend a parse that consumed every earlier token:
it is empty or starts with a `goodStop` token (such as `)`). -/
def StopSuffix : List Token → Prop
  | [] => True
  | t :: _ => goodStop t

theorem nextTokenIs_append_some {valid : List String} {toks : List Token}
    {t : Token} {rest : List Token} (suf : List Token)
    (h : nextTokenIs valid toks = some (t, rest)) :
    nextTokenIs valid (toks ++ suf) = some (t, rest ++ suf) := by
  cases toks with
  | nil => exact Option.noConfusion h
  | cons t0 r0 =>
    rw [nextTokenIs] at h
    by_cases hv : t0.text ∈ valid
    · rw [if_pos hv] at h
      simp only [Option.some.injEq, Prod.mk.injEq] at h
      obtain ⟨rfl, rfl⟩ := h
      simp [nextTokenIs, hv, List.cons_append]
    · rw [if_neg hv] at h
      exact Option.noConfusion h

theorem nextTokenIs_append_none {valid : List String} {toks suf : List Token}
    (hv : ∀ s ∈ valid, s ∈ (["+", "-", "*", "/", "^", "("] : List String))
    (hs : StopSuffix suf) (h : nextTokenIs valid toks = none) :
    nextTokenIs valid (toks ++ suf) = none := by
  cases toks with
  | nil =>
    simp only [List.nil_append]
    cases suf with
    | nil => rfl
    | cons t r =>
      rw [nextTokenIs, if_neg]
      intro hmem
      exact hs (hv _ hmem)
  | cons t0 r0 =>
    rw [nextTokenIs] at h
    by_cases hvv : t0.text ∈ valid
    · rw [if_pos hvv] at h
      exact Option.noConfusion h
    · simp [nextTokenIs, List.cons_append, hvv]

theorem skipPlus_append {toks suf : List Token} (hs : StopSuffix suf) :
    skipPlus (toks ++ suf) = skipPlus toks ++ suf := by
  induction toks with
  | nil =>
    simp only [List.nil_append, skipPlus]
    cases suf with
    | nil => rfl
    | cons t r =>
      rw [skipPlus, if_neg]
      intro h0
      exact hs (by simp [h0])
  | cons t0 r0 ih =>
    simp only [List.cons_append, skipPlus]
    by_cases h0 : t0.text = "+"
    · rw [if_pos h0, if_pos h0]
      exact ih
    · rw [if_neg h0, if_neg h0]
      simp [List.cons_append]

theorem getNextToken_append {toks suf : List Token} {t : Token} {rest : List Token}
    (h : getNextToken toks = .ok (t, rest)) :
    getNextToken (toks ++ suf) = .ok (t, rest ++ suf) := by
  cases toks with
  | nil => exact Except.noConfusion h
  | cons t0 r0 =>
    rw [getNextToken] at h
    simp only [Except.ok.injEq, Prod.mk.injEq] at h
    obtain ⟨rfl, rfl⟩ := h
    simp [getNextToken, List.cons_append]

theorem expectToken_append {s : String} {toks suf : List Token} {t : Token}
    {rest : List Token} (h : expectToken s toks = .ok (t, rest)) :
    expectToken s (toks ++ suf) = .ok (t, rest ++ suf) := by
  cases toks with
  | nil => exact Except.noConfusion h
  | cons t0 r0 =>
    rw [expectToken] at h
    by_cases hv : t0.text = s
    · rw [if_pos hv] at h
      simp only [Except.ok.injEq, Prod.mk.injEq] at h
      obtain ⟨rfl, rfl⟩ := h
      simp [expectToken, hv, List.cons_append]
    · rw [if_neg hv] at h
      exact Except.noConfusion h

/-- All six parser functions: a successful run on `toks` behaves identically
on `toks ++ suf` whenever `suf` is a `StopSuffix`, leaving `suf` appended to
the unconsumed remainder. -/
def AppendAt (f : Nat) : Prop :=
  (∀ toks suf e rem, StopSuffix suf → parseExpr f toks = .ok (e, rem) →
    parseExpr f (toks ++ suf) = .ok (e, rem ++ suf)) ∧
  (∀ acc toks suf e rem, StopSuffix suf → parseExprLoop f acc toks = .ok (e, rem) →
    parseExprLoop f acc (toks ++ suf) = .ok (e, rem ++ suf)) ∧
  (∀ toks suf e rem, StopSuffix suf → parseMulExpr f toks = .ok (e, rem) →
    parseMulExpr f (toks ++ suf) = .ok (e, rem ++ suf)) ∧
  (∀ acc toks suf e rem, StopSuffix suf → parseMulLoop f acc toks = .ok (e, rem) →
    parseMulLoop f acc (toks ++ suf) = .ok (e, rem ++ suf)) ∧
  (∀ toks suf e rem, StopSuffix suf → parsePowExpr f toks = .ok (e, rem) →
    parsePowExpr f (toks ++ suf) = .ok (e, rem ++ suf)) ∧
  (∀ toks suf e rem, StopSuffix suf → parseAtom f toks = .ok (e, rem) →
    parseAtom f (toks ++ suf) = .ok (e, rem ++ suf))

theorem appendAt : ∀ f, AppendAt f := by
  intro f
  induction f with
  | zero =>
    refine ⟨?_, ?_, ?_, ?_, ?_, ?_⟩
    · intro _ _ _ _ _ h; exact Except.noConfusion h
    · intro _ _ _ _ _ _ h; exact Except.noConfusion h
    · intro _ _ _ _ _ h; exact Except.noConfusion h
    · intro _ _ _ _ _ _ h; exact Except.noConfusion h
    · intro _ _ _ _ _ h; exact Except.noConfusion h
    · intro _ _ _ _ _ h; exact Except.noConfusion h
  | succ f ih =>
    obtain ⟨ihE, ihEL, ihM, ihML, ihP, ihA⟩ := ih
    refine ⟨?_, ?_, ?_, ?_, ?_, ?_⟩
    · -- parseExpr
      intro toks suf e rem hs h
      rw [parseExpr] at h ⊢
      cases hm : parseMulExpr f toks with
      | error e2 => rw [hm] at h; exact Except.noConfusion h
      | ok pr =>
        obtain ⟨e1, r1⟩ := pr
        rw [hm] at h
        rw [ihM _ _ _ _ hs hm]
        exact ihEL _ _ _ _ _ hs h
    · -- parseExprLoop
      intro acc toks suf e rem hs h
      rw [parseExprLoop] at h ⊢
      cases hn : nextTokenIs ["+", "-"] toks with
      | none =>
        rw [hn] at h
        rw [nextTokenIs_append_none (by decide) hs hn]
        simp only [Except.ok.injEq, Prod.mk.injEq] at h
        obtain ⟨rfl, rfl⟩ := h
        rfl
      | some pr =>
        obtain ⟨op, rest⟩ := pr
        rw [hn] at h
        rw [nextTokenIs_append_some suf hn]
        dsimp only at h ⊢
        cases hm : parseMulExpr f rest with
        | error e2 => rw [hm] at h; exact Except.noConfusion h
        | ok pr2 =>
          obtain ⟨right, r2⟩ := pr2
          rw [hm] at h
          rw [ihM _ _ _ _ hs hm]
          dsimp only at h ⊢
          by_cases hop : op.text = "+"
          · rw [if_pos hop] at h ⊢
            exact ihEL _ _ _ _ _ hs h
          · rw [if_neg hop] at h ⊢
            exact ihEL _ _ _ _ _ hs h
    · -- parseMulExpr
      intro toks suf e rem hs h
      rw [parseMulExpr] at h ⊢
      cases hm : parsePowExpr f toks with
      | error e2 => rw [hm] at h; exact Except.noConfusion h
      | ok pr =>
        obtain ⟨e1, r1⟩ := pr
        rw [hm] at h
        rw [ihP _ _ _ _ hs hm]
        exact ihML _ _ _ _ _ hs h
    · -- parseMulLoop
      intro acc toks suf e rem hs h
      rw [parseMulLoop] at h ⊢
      cases hn : nextTokenIs ["*", "/"] toks with
      | none =>
        rw [hn] at h
        rw [nextTokenIs_append_none (by decide) hs hn]
        simp only [Except.ok.injEq, Prod.mk.injEq] at h
        obtain ⟨rfl, rfl⟩ := h
        rfl
      | some pr =>
        obtain ⟨op, rest⟩ := pr
        rw [hn] at h
        rw [nextTokenIs_append_some suf hn]
        dsimp only at h ⊢
        cases hm : parsePowExpr f rest with
        | error e2 => rw [hm] at h; exact Except.noConfusion h
        | ok pr2 =>
          obtain ⟨right, r2⟩ := pr2
          rw [hm] at h
          rw [ihP _ _ _ _ hs hm]
          dsimp only at h ⊢
          by_cases hop : op.text = "*"
          · rw [if_pos hop] at h ⊢
            exact ihML _ _ _ _ _ hs h
          · rw [if_neg hop] at h ⊢
            exact ihML _ _ _ _ _ hs h
    · -- parsePowExpr
      intro toks suf e rem hs h
      rw [parsePowExpr] at h ⊢
      rw [skipPlus_append hs]
      cases hn : nextTokenIs ["-"] (skipPlus toks) with
      | some pr =>
        obtain ⟨m, rest⟩ := pr
        rw [hn] at h
        rw [nextTokenIs_append_some suf hn]
        dsimp only at h ⊢
        cases hg : getNextToken rest with
        | error e2 => rw [hg] at h; exact Except.noConfusion h
        | ok pr2 =>
          obtain ⟨optoken, rest2⟩ := pr2
          rw [hg] at h
          rw [getNextToken_append hg]
          dsimp only at h ⊢
          cases hp : parsePowExpr f rest2 with
          | error e2 => rw [hp] at h; exact Except.noConfusion h
          | ok pr3 =>
            obtain ⟨arg, rest3⟩ := pr3
            rw [hp] at h
            rw [ihP _ _ _ _ hs hp]
            dsimp only at h ⊢
            simp only [Except.ok.injEq, Prod.mk.injEq] at h
            obtain ⟨rfl, rfl⟩ := h
            rfl
      | none =>
        rw [hn] at h
        rw [nextTokenIs_append_none (by decide) hs hn]
        dsimp only at h ⊢
        cases ha : parseAtom f (skipPlus toks) with
        | error e2 => rw [ha] at h; exact Except.noConfusion h
        | ok pr2 =>
          obtain ⟨e1, rest⟩ := pr2
          rw [ha] at h
          rw [ihA _ _ _ _ hs ha]
          dsimp only at h ⊢
          cases hx : nextTokenIs ["^"] rest with
          | none =>
            rw [hx] at h
            rw [nextTokenIs_append_none (by decide) hs hx]
            simp only [Except.ok.injEq, Prod.mk.injEq] at h
            obtain ⟨rfl, rfl⟩ := h
            rfl
          | some pr3 =>
            obtain ⟨op, rest2⟩ := pr3
            rw [hx] at h
            rw [nextTokenIs_append_some suf hx]
            dsimp only at h ⊢
            cases hp : parsePowExpr f rest2 with
            | error e2 => rw [hp] at h; exact Except.noConfusion h
            | ok pr4 =>
              obtain ⟨right, rest3⟩ := pr4
              rw [hp] at h
              rw [ihP _ _ _ _ hs hp]
              dsimp only at h ⊢
              simp only [Except.ok.injEq, Prod.mk.injEq] at h
              obtain ⟨rfl, rfl⟩ := h
              rfl
    · -- parseAtom
      intro toks suf e rem hs h
      rw [parseAtom] at h ⊢
      cases hg : getNextToken toks with
      | error e2 => rw [hg] at h; exact Except.noConfusion h
      | ok pr =>
        obtain ⟨token, rest⟩ := pr
        rw [hg] at h
        rw [getNextToken_append hg]
        dsimp only at h ⊢
        by_cases hk : token.kind = TokenKind.identifier
        · rw [if_pos hk] at h ⊢
          cases hn : nextTokenIs ["("] rest with
          | some pr2 =>
            obtain ⟨lp, rest2⟩ := pr2
            rw [hn] at h
            rw [nextTokenIs_append_some suf hn]
            dsimp only at h ⊢
            cases he : parseExpr f rest2 with
            | error e2 => rw [he] at h; exact Except.noConfusion h
            | ok pr3 =>
              obtain ⟨arg, rest3⟩ := pr3
              rw [he] at h
              rw [ihE _ _ _ _ hs he]
              dsimp only at h ⊢
              cases hx : expectToken ")" rest3 with
              | error e2 => rw [hx] at h; exact Except.noConfusion h
              | ok pr4 =>
                obtain ⟨rp, rest4⟩ := pr4
                rw [hx] at h
                rw [expectToken_append hx]
                dsimp only at h ⊢
                simp only [Except.ok.injEq, Prod.mk.injEq] at h
                obtain ⟨rfl, rfl⟩ := h
                rfl
          | none =>
            rw [hn] at h
            rw [nextTokenIs_append_none (by decide) hs hn]
            simp only [Except.ok.injEq, Prod.mk.injEq] at h
            obtain ⟨rfl, rfl⟩ := h
            rfl
        · rw [if_neg hk] at h ⊢
          by_cases hk2 : token.kind = TokenKind.number
          · rw [if_pos hk2] at h ⊢
            simp only [Except.ok.injEq, Prod.mk.injEq] at h
            obtain ⟨rfl, rfl⟩ := h
            rfl
          · rw [if_neg hk2] at h ⊢
            by_cases ht : token.text = "("
            · rw [if_pos ht] at h ⊢
              cases he : parseExpr f rest with
              | error e2 => rw [he] at h; exact Except.noConfusion h
              | ok pr3 =>
                obtain ⟨e1, rest2⟩ := pr3
                rw [he] at h
                rw [ihE _ _ _ _ hs he]
                dsimp only at h ⊢
                cases hx : expectToken ")" rest2 with
                | error e2 => rw [hx] at h; exact Except.noConfusion h
                | ok pr4 =>
                  obtain ⟨rp, rest3⟩ := pr4
                  rw [hx] at h
                  rw [expectToken_append hx]
                  dsimp only at h ⊢
                  simp only [Except.ok.injEq, Prod.mk.injEq] at h
                  obtain ⟨rfl, rfl⟩ := h
                  rfl
            · rw [if_neg ht] at h ⊢
              exact Except.noConfusion h


/-! ### The parser only reads the text and kind of tokens -/

/-- Pointwise image of a token-and-remainder result under a token map. -/
def mapTRes (g : Token → Token) :
    Except PErr (Token × List Token) → Except PErr (Token × List Token)
  | .ok (t, r) => .ok (g t, r.map g)
  | .error pe => .error (pe.mapTok g)

/-- Pointwise image of a parse result under a token map. -/
def mapPRes (g : Token → Token) :
    Except PErr (Expression × List Token) → Except PErr (Expression × List Token)
  | .ok (e, r) => .ok (e.mapTok g, r.map g)
  | .error pe => .error (pe.mapTok g)

/-- A token map that changes neither texts nor kinds (such as `stripT`). -/
def PreservesTok (g : Token → Token) : Prop :=
  ∀ t, (g t).text = t.text ∧ (g t).kind = t.kind

theorem nextTokenIs_map {g : Token → Token} (hg : PreservesTok g)
    (valid : List String) (toks : List Token) :
    nextTokenIs valid (toks.map g)
      = (nextTokenIs valid toks).map (fun p => (g p.1, p.2.map g)) := by
  cases toks with
  | nil => rfl
  | cons t rest =>
    simp only [List.map_cons, nextTokenIs, (hg t).1]
    by_cases hv : t.text ∈ valid
    · rw [if_pos hv, if_pos hv]
      rfl
    · rw [if_neg hv, if_neg hv]
      rfl

theorem getNextToken_map (g : Token → Token) (toks : List Token) :
    getNextToken (toks.map g) = mapTRes g (getNextToken toks) := by
  cases toks with
  | nil => rfl
  | cons t rest => rfl

theorem expectToken_map {g : Token → Token} (hg : PreservesTok g)
    (s : String) (toks : List Token) :
    expectToken s (toks.map g) = mapTRes g (expectToken s toks) := by
  cases toks with
  | nil => rfl
  | cons t rest =>
    simp only [List.map_cons, expectToken, (hg t).1]
    by_cases hv : t.text = s
    · rw [if_pos hv, if_pos hv]
      rfl
    · rw [if_neg hv, if_neg hv]
      rfl

theorem skipPlus_map {g : Token → Token} (hg : PreservesTok g) (toks : List Token) :
    skipPlus (toks.map g) = (skipPlus toks).map g := by
  induction toks with
  | nil => rfl
  | cons t rest ih =>
    simp only [List.map_cons, skipPlus, (hg t).1]
    by_cases hv : t.text = "+"
    · rw [if_pos hv, if_pos hv]
      exact ih
    · rw [if_neg hv, if_neg hv]
      rfl

/-- All six parser functions commute with any token map that preserves
texts and kinds: on the mapped token list they produce the mapped result. -/
def MapAt (g : Token → Token) (f : Nat) : Prop :=
  (∀ toks, parseExpr f (toks.map g) = mapPRes g (parseExpr f toks)) ∧
  (∀ acc toks, parseExprLoop f (acc.mapTok g) (toks.map g)
    = mapPRes g (parseExprLoop f acc toks)) ∧
  (∀ toks, parseMulExpr f (toks.map g) = mapPRes g (parseMulExpr f toks)) ∧
  (∀ acc toks, parseMulLoop f (acc.mapTok g) (toks.map g)
    = mapPRes g (parseMulLoop f acc toks)) ∧
  (∀ toks, parsePowExpr f (toks.map g) = mapPRes g (parsePowExpr f toks)) ∧
  (∀ toks, parseAtom f (toks.map g) = mapPRes g (parseAtom f toks))

theorem mapAt {g : Token → Token} (hg : PreservesTok g) : ∀ f, MapAt g f := by
  intro f
  induction f with
  | zero => exact ⟨fun _ => rfl, fun _ _ => rfl, fun _ => rfl, fun _ _ => rfl,
      fun _ => rfl, fun _ => rfl⟩
  | succ f ih =>
    obtain ⟨ihE, ihEL, ihM, ihML, ihP, ihA⟩ := ih
    refine ⟨?_, ?_, ?_, ?_, ?_, ?_⟩
    · -- parseExpr
      intro toks
      rw [parseExpr, parseExpr, ihM]
      cases hm : parseMulExpr f toks with
      | error e2 => rfl
      | ok pr =>
        obtain ⟨e1, r1⟩ := pr
        exact ihEL e1 r1
    · -- parseExprLoop
      intro acc toks
      rw [parseExprLoop, parseExprLoop, nextTokenIs_map hg]
      cases hn : nextTokenIs ["+", "-"] toks with
      | none => rfl
      | some pr =>
        obtain ⟨op, rest⟩ := pr
        dsimp only [Option.map, mapPRes]
        rw [ihM]
        cases hm : parseMulExpr f rest with
        | error e2 => rfl
        | ok pr2 =>
          obtain ⟨right, r2⟩ := pr2
          dsimp only [mapPRes]
          rw [(hg op).1]
          by_cases hop : op.text = "+"
          · rw [if_pos hop, if_pos hop]
            exact ihEL (Expression.add op acc right) r2
          · rw [if_neg hop, if_neg hop]
            exact ihEL (Expression.subtract op acc right) r2
    · -- parseMulExpr
      intro toks
      rw [parseMulExpr, parseMulExpr, ihP]
      cases hm : parsePowExpr f toks with
      | error e2 => rfl
      | ok pr =>
        obtain ⟨e1, r1⟩ := pr
        exact ihML e1 r1
    · -- parseMulLoop
      intro acc toks
      rw [parseMulLoop, parseMulLoop, nextTokenIs_map hg]
      cases hn : nextTokenIs ["*", "/"] toks with
      | none => rfl
      | some pr =>
        obtain ⟨op, rest⟩ := pr
        dsimp only [Option.map, mapPRes]
        rw [ihP]
        cases hm : parsePowExpr f rest with
        | error e2 => rfl
        | ok pr2 =>
          obtain ⟨right, r2⟩ := pr2
          dsimp only [mapPRes]
          rw [(hg op).1]
          by_cases hop : op.text = "*"
          · rw [if_pos hop, if_pos hop]
            exact ihML (Expression.multiply op acc right) r2
          · rw [if_neg hop, if_neg hop]
            exact ihML (Expression.divide op acc right) r2
    · -- parsePowExpr
      intro toks
      rw [parsePowExpr, parsePowExpr, skipPlus_map hg, nextTokenIs_map hg]
      cases hn : nextTokenIs ["-"] (skipPlus toks) with
      | none =>
        dsimp only [Option.map, mapPRes]
        rw [ihA]
        cases ha : parseAtom f (skipPlus toks) with
        | error e2 => rfl
        | ok pr2 =>
          obtain ⟨e1, rest⟩ := pr2
          dsimp only [mapPRes]
          rw [nextTokenIs_map hg]
          cases hx : nextTokenIs ["^"] rest with
          | none => rfl
          | some pr3 =>
            obtain ⟨op, rest2⟩ := pr3
            dsimp only [Option.map, mapPRes]
            rw [ihP]
            cases hp : parsePowExpr f rest2 with
            | error e2 => rfl
            | ok pr4 =>
              obtain ⟨right, rest3⟩ := pr4
              rfl
      | some pr =>
        obtain ⟨m, rest⟩ := pr
        dsimp only [Option.map, mapPRes]
        rw [getNextToken_map g]
        cases hgn : getNextToken rest with
        | error e2 => rfl
        | ok pr2 =>
          obtain ⟨optoken, rest2⟩ := pr2
          dsimp only [mapTRes]
          rw [ihP]
          cases hp : parsePowExpr f rest2 with
          | error e2 => rfl
          | ok pr3 =>
            obtain ⟨arg, rest3⟩ := pr3
            rfl
    · -- parseAtom
      intro toks
      rw [parseAtom, parseAtom, getNextToken_map g]
      cases hgn : getNextToken toks with
      | error e2 => rfl
      | ok pr =>
        obtain ⟨token, rest⟩ := pr
        dsimp only [mapTRes]
        rw [(hg token).2]
        by_cases hk : token.kind = TokenKind.identifier
        · rw [if_pos hk, if_pos hk, nextTokenIs_map hg]
          cases hn : nextTokenIs ["("] rest with
          | none => rfl
          | some pr2 =>
            obtain ⟨lp, rest2⟩ := pr2
            dsimp only [Option.map, mapPRes]
            rw [ihE]
            cases he : parseExpr f rest2 with
            | error e2 => rfl
            | ok pr3 =>
              obtain ⟨arg, rest3⟩ := pr3
              dsimp only [mapPRes]
              rw [expectToken_map hg]
              cases hx : expectToken ")" rest3 with
              | error e2 => rfl
              | ok pr4 =>
                obtain ⟨rp, rest4⟩ := pr4
                rfl
        · rw [if_neg hk, if_neg hk]
          by_cases hk2 : token.kind = TokenKind.number
          · rw [if_pos hk2, if_pos hk2]
            rfl
          · rw [if_neg hk2, if_neg hk2, (hg token).1]
            by_cases ht : token.text = "("
            · rw [if_pos ht, if_pos ht, ihE]
              cases he : parseExpr f rest with
              | error e2 => rfl
              | ok pr3 =>
                obtain ⟨e1, rest2⟩ := pr3
                dsimp only [mapPRes]
                rw [expectToken_map hg]
                cases hx : expectToken ")" rest2 with
                | error e2 => rfl
                | ok pr4 =>
                  obtain ⟨rp, rest3⟩ := pr4
                  rfl
            · rw [if_neg ht, if_neg ht]
              rfl


theorem stripT_preserves : PreservesTok stripT := fun _ => ⟨rfl, rfl⟩

/-! ### The top-level Parse wrapper -/

theorem parserParse_ok {f : Nat} {toks : List Token} {e : Expression}
    (h : parseExpr f toks = .ok (e, [])) : parserParse f toks = .ok e := by
  rw [parserParse, h]

/-- If the top-level `expr` leaves tokens unconsumed, `Parse` raises the
`Syntax error` SyntaxError carrying the first unconsumed token. -/
theorem parserParse_trailing {f : Nat} {toks : List Token} {e : Expression}
    {t : Token} {rest : List Token}
    (h : parseExpr f toks = .ok (e, t :: rest)) :
    parserParse f toks = .error (.jsError ⟨"SyntaxError", "Syntax error", some t⟩) := by
  rw [parserParse, h]

theorem parserParse_ok_inv {f : Nat} {toks : List Token} {A : Expression}
    (h : parserParse f toks = .ok A) : parseExpr f toks = .ok (A, []) := by
  rw [parserParse] at h
  cases he : parseExpr f toks with
  | error e2 => rw [he] at h; exact Except.noConfusion h
  | ok pr =>
    obtain ⟨e1, rest⟩ := pr
    rw [he] at h
    cases rest with
    | nil =>
      simp only [Except.ok.injEq] at h
      rw [h]
    | cons t r => exact Except.noConfusion h

theorem parserParse_map {g : Token → Token} (hg : PreservesTok g)
    (f : Nat) (toks : List Token) :
    parserParse f (toks.map g)
      = (match parserParse f toks with
          | .ok e => .ok (e.mapTok g)
          | .error pe => .error (pe.mapTok g)) := by
  rw [parserParse, parserParse, (mapAt hg f).1]
  cases he : parseExpr f toks with
  | error e2 => rfl
  | ok pr =>
    obtain ⟨e1, rest⟩ := pr
    dsimp only [mapPRes]
    cases rest with
    | nil => rfl
    | cons t r => rfl

/-! ### Tokenizing a parenthesized input -/

/-- Up to token offsets, tokenizing `"(" ++ s ++ ")"` yields a `(` token,
the tokens of `s`, and a `)` token. -/
theorem lexString_paren_strip (s : String) :
    (lexString ("(" ++ s ++ ")")).map stripT
      = mkToken "(" 0 :: (lexString s).map stripT ++ [mkToken ")" 0] := by
  have hdata : ("(" ++ s ++ ")").data = '(' :: (s.data ++ [')']) := by
    simp [String.data_append]
  rw [lexString, hdata]
  have hlen : ('(' :: (s.data ++ [')'])).length = s.data.length + 2 := by
    simp
  rw [hlen]
  have hstep : lexAux (s.data.length + 2) ('(' :: (s.data ++ [')'])) 0
      = mkToken "(" 0 :: lexAux (s.data.length + 1) (s.data ++ [')']) 1 := by
    rw [lexAux]
    rw [if_neg (by decide), if_neg (by decide), if_neg (by decide)]
  rw [hstep]
  rw [lexAux_append_close (s.data.length + 1) s.data 1 (Nat.lt_succ_self _)]
  simp only [List.map_cons, List.map_append, List.map_cons, List.map_nil]
  rw [lexString]
  have hfuel : lexAux (s.data.length + 1) s.data 1 = lexAux s.data.length s.data 1 :=
    lexAux_fuel _ _ _ _ (Nat.le_succ _) (Nat.le_refl _)
  rw [hfuel, lexAux_strip_offset s.data.length s.data 1 0]
  rfl

/-! ### Wrapping a complete parse in parentheses -/

/-- If `parseExpr` consumes `toks` up to a final `)` token, then with four
more units of fuel it parses `( toks` to the same AST, consuming the `)`:
this is the `"(" expr ")"` branch of `ParseAtom` seen from the outside. -/
theorem parseExpr_paren_wrap {f : Nat} {toks : List Token} {A : Expression}
    (h : parseExpr f toks = .ok (A, [mkToken ")" 0])) :
    parseExpr (f + 1 + 1 + 1 + 1) (mkToken "(" 0 :: toks) = .ok (A, []) := by
  have hatom : parseAtom (f + 1) (mkToken "(" 0 :: toks) = .ok (A, []) := by
    rw [parseAtom]
    simp only [getNextToken]
    rw [if_neg (by decide), if_neg (by decide), if_pos (by decide), h]
    dsimp only
    simp only [expectToken]
    rw [if_pos (by decide)]
  have hpow : parsePowExpr (f + 1 + 1) (mkToken "(" 0 :: toks) = .ok (A, []) := by
    rw [parsePowExpr]
    have hskip : skipPlus (mkToken "(" 0 :: toks) = mkToken "(" 0 :: toks := by
      rw [skipPlus, if_neg (by decide)]
    rw [hskip]
    have hminus : nextTokenIs ["-"] (mkToken "(" 0 :: toks) = none := by
      rw [nextTokenIs, if_neg (by decide)]
    rw [hminus]
    dsimp only
    rw [hatom]
    dsimp only
    rfl
  have hmul : parseMulExpr (f + 1 + 1 + 1) (mkToken "(" 0 :: toks) = .ok (A, []) := by
    rw [parseMulExpr, hpow]
    dsimp only
    rw [parseMulLoop]
    rfl
  rw [parseExpr, hmul]
  dsimp only
  rw [parseExprLoop]
  rfl


/-! ## The claims -/

/-- Claim C1.  The claim states that `parse "-x^2"` succeeds and returns
`Negate(Power(x,2))`, rendering as `-x^` followed by a braced 2, and that a
unary `-` in `powexpr` wraps the result of parsing another complete
`powexpr`.  The code disagrees with its own grammar comment
(`powexpr ::= "-" powexpr | ...`): after `NextTokenIs(['-'])` has already
consumed the `-`, the shadowed `const optoken = this.GetNextToken();`
consumes the following token as well.  This theorem evaluates the code at the
failing input: `parse "-x^2"` throws a SyntaxError at the `^` token, and
`parse "--x"` yields a single `Negative` node whose operator token is the
second `-`, instead of `Negate(Negate(x))`. -/
theorem c1_unary_minus_power_behavior :
    parse "-x^2" = .error (.jsError ⟨"SyntaxError",
        "Expected identifier, number, function, or parenthesized expression.",
        some ⟨"^", 2, .operator⟩⟩)
    ∧ parse "--x" = .ok (.negative ⟨"-", 1, .operator⟩
        (.identifier ⟨"x", 2, .identifier⟩)) :=
  ⟨rfl, rfl⟩

/-- Claim C2, counterexample.  The claim states that an argument list is
comma-separated and that `parse "sqrt(x,y)"` succeeds at the parse stage,
failing only at render time with a FormatError.  In the code, `ParseAtom`
builds the argument list as `[ this.ParseExpr() ]` with no comma loop, so
`parse "sqrt(x,y)"` already fails at the parse stage: `ExpectToken(')')`
throws a SyntaxError referencing the `,` token. -/
theorem c2_counterexample :
    parse "sqrt(x,y)" = .error (.jsError ⟨"SyntaxError", "Expected \")\"",
      some ⟨",", 6, .operator⟩⟩) :=
  rfl

/-- Claim C2, amended.  An identifier immediately followed by `(` parses as
a function call whose argument list is exactly one expression (no comma
support), so `sqrt(x,y)` is a parse-stage SyntaxError; `parse "sqrt(x)"`
renders as `\sqrt` of x, `parse "foo(x)"` fails with FormatError (unknown
function), and the render-time arity check exists (a `Function` node with
two arguments fails with FormatError) but is unreachable from `parse`. -/
theorem c2_function_call_amended :
    parseAndRender "sqrt(x)" = .ok "\\sqrt\x7bx\x7d"
    ∧ parseAndRender "foo(x)" = .error (.jsError ⟨"FormatError",
        "Unknown function \"foo\"", some ⟨"foo", 0, .identifier⟩⟩)
    ∧ (Expression.function ⟨"sqrt", 0, .identifier⟩
        [.identifier ⟨"x", 5, .identifier⟩,
         .identifier ⟨"y", 7, .identifier⟩]).prettyMath
      = .error (singleArgError ⟨"sqrt", 0, .identifier⟩) :=
  ⟨rfl, rfl, rfl⟩

/-- Claim C3.  Rendering an `Add` or `Subtract` node wraps the left child
in parentheses exactly when the left child's precedence is strictly less
than the node's, and the right child exactly when its precedence is less
than or equal to the node's; consequently `a-b-c` renders as `a-b-c` while
`a-(b-c)` renders with explicit parentheses around `b-c`. -/
theorem c3_addsub_parenthesization (t : Token) (l r : Expression) (ls rs : String)
    (hl : l.prettyMath = .ok ls) (hr : r.prettyMath = .ok rs) :
    ((Expression.add t l r).prettyMath = .ok
        ((if l.precedence < (Expression.add t l r).precedence then wrapParens ls else ls)
          ++ t.text ++
          (if r.precedence ≤ (Expression.add t l r).precedence then wrapParens rs else rs))
      ∧ (Expression.subtract t l r).prettyMath = .ok
        ((if l.precedence < (Expression.subtract t l r).precedence then wrapParens ls else ls)
          ++ t.text ++
          (if r.precedence ≤ (Expression.subtract t l r).precedence then wrapParens rs else rs)))
    ∧ parseAndRender "a-b-c" = .ok "a-b-c"
    ∧ parseAndRender "a-(b-c)" = .ok "a-\\left(b-c\\right)" := by
  refine ⟨⟨?_, ?_⟩, rfl, rfl⟩
  · rw [Expression.prettyMath, hl, hr]
    simp [leftAssocText, Expression.precedence]
  · rw [Expression.prettyMath, hl, hr]
    simp [leftAssocText, Expression.precedence]

/-- Witness for C3 at concrete children `a` and `b`. -/
theorem c3_addsub_parenthesization_witness :
    ((Expression.add ⟨"+", 1, .operator⟩ (.identifier ⟨"a", 0, .identifier⟩)
        (.identifier ⟨"b", 2, .identifier⟩)).prettyMath = .ok
        ((if (Expression.identifier ⟨"a", 0, .identifier⟩).precedence
              < (Expression.add ⟨"+", 1, .operator⟩ (.identifier ⟨"a", 0, .identifier⟩)
                  (.identifier ⟨"b", 2, .identifier⟩)).precedence
          then wrapParens "a" else "a")
          ++ (⟨"+", 1, TokenKind.operator⟩ : Token).text ++
          (if (Expression.identifier ⟨"b", 2, .identifier⟩).precedence
              ≤ (Expression.add ⟨"+", 1, .operator⟩ (.identifier ⟨"a", 0, .identifier⟩)
                  (.identifier ⟨"b", 2, .identifier⟩)).precedence
          then wrapParens "b" else "b"))
      ∧ (Expression.subtract ⟨"+", 1, .operator⟩ (.identifier ⟨"a", 0, .identifier⟩)
        (.identifier ⟨"b", 2, .identifier⟩)).prettyMath = .ok
        ((if (Expression.identifier ⟨"a", 0, .identifier⟩).precedence
              < (Expression.subtract ⟨"+", 1, .operator⟩ (.identifier ⟨"a", 0, .identifier⟩)
                  (.identifier ⟨"b", 2, .identifier⟩)).precedence
          then wrapParens "a" else "a")
          ++ (⟨"+", 1, TokenKind.operator⟩ : Token).text ++
          (if (Expression.identifier ⟨"b", 2, .identifier⟩).precedence
              ≤ (Expression.subtract ⟨"+", 1, .operator⟩ (.identifier ⟨"a", 0, .identifier⟩)
                  (.identifier ⟨"b", 2, .identifier⟩)).precedence
          then wrapParens "b" else "b")))
    ∧ parseAndRender "a-b-c" = .ok "a-b-c"
    ∧ parseAndRender "a-(b-c)" = .ok "a-\\left(b-c\\right)" :=
  c3_addsub_parenthesization ⟨"+", 1, .operator⟩ (.identifier ⟨"a", 0, .identifier⟩)
    (.identifier ⟨"b", 2, .identifier⟩) "a" "b" rfl rfl

/-- Claim C4, counterexample.  The claim states that `parse "a^b^c"`
renders with braces only around the whole exponent, as `a^` followed by
braced `b^c`.  In the code the inner exponent is braced as well: the
renderer produces `a^` followed by braced (`b^` braced `c`). -/
theorem c4_counterexample :
    parseAndRender "a^b^c" = .ok "a^\x7bb^\x7bc\x7d\x7d"
    ∧ parseAndRender "a^b^c" ≠ .ok "a^\x7bb^c\x7d" := by
  refine ⟨rfl, ?_⟩
  intro hcon
  have h3 : (Except.ok "a^\x7bb^\x7bc\x7d\x7d" : Except PErr String)
      = .ok "a^\x7bb^c\x7d" := by
    rw [← hcon]
    rfl
  injection h3 with h4
  exact absurd h4 (by decide)

/-- Claim C4, amended.  `^` is right-associative via right recursion, so
`parse "a^b^c"` yields `Power(a, Power(b,c))`; rendering a `Power` node
wraps the left child in parentheses exactly when its precedence is less
than or equal to the node's, and the right child in parentheses exactly
when its precedence is strictly less, otherwise in braces; consequently
`a^b^c` renders as `a^` followed by braced (`b^` braced `c`). -/
theorem c4_power_rendering_amended (t : Token) (l r : Expression) (ls rs : String)
    (hl : l.prettyMath = .ok ls) (hr : r.prettyMath = .ok rs) :
    ((Expression.power t l r).prettyMath = .ok
        ((if l.precedence ≤ (Expression.power t l r).precedence then wrapParens ls else ls)
          ++ t.text ++
          (if r.precedence < (Expression.power t l r).precedence then wrapParens rs
           else "\x7b" ++ rs ++ "\x7d")))
    ∧ parse "a^b^c" = .ok (.power ⟨"^", 1, .operator⟩
        (.identifier ⟨"a", 0, .identifier⟩)
        (.power ⟨"^", 3, .operator⟩ (.identifier ⟨"b", 2, .identifier⟩)
          (.identifier ⟨"c", 4, .identifier⟩)))
    ∧ parseAndRender "a^b^c" = .ok "a^\x7bb^\x7bc\x7d\x7d" := by
  refine ⟨?_, rfl, rfl⟩
  rw [Expression.prettyMath, hl, hr]
  simp [rightAssocText, Expression.precedence]

/-- Witness for C4 at concrete children `a` and `b`. -/
theorem c4_power_rendering_amended_witness :
    ((Expression.power ⟨"^", 1, .operator⟩ (.identifier ⟨"a", 0, .identifier⟩)
        (.identifier ⟨"b", 2, .identifier⟩)).prettyMath = .ok
        ((if (Expression.identifier ⟨"a", 0, .identifier⟩).precedence
              ≤ (Expression.power ⟨"^", 1, .operator⟩ (.identifier ⟨"a", 0, .identifier⟩)
                  (.identifier ⟨"b", 2, .identifier⟩)).precedence
          then wrapParens "a" else "a")
          ++ (⟨"^", 1, TokenKind.operator⟩ : Token).text ++
          (if (Expression.identifier ⟨"b", 2, .identifier⟩).precedence
              < (Expression.power ⟨"^", 1, .operator⟩ (.identifier ⟨"a", 0, .identifier⟩)
                  (.identifier ⟨"b", 2, .identifier⟩)).precedence
          then wrapParens "b" else "\x7b" ++ "b" ++ "\x7d")))
    ∧ parse "a^b^c" = .ok (.power ⟨"^", 1, .operator⟩
        (.identifier ⟨"a", 0, .identifier⟩)
        (.power ⟨"^", 3, .operator⟩ (.identifier ⟨"b", 2, .identifier⟩)
          (.identifier ⟨"c", 4, .identifier⟩)))
    ∧ parseAndRender "a^b^c" = .ok "a^\x7bb^\x7bc\x7d\x7d" :=
  c4_power_rendering_amended ⟨"^", 1, .operator⟩ (.identifier ⟨"a", 0, .identifier⟩)
    (.identifier ⟨"b", 2, .identifier⟩) "a" "b" rfl rfl

/-- Claim C5.  A `Divide` node always renders as the fraction template
`\frac` of numerator and denominator with no parenthesization of either
child, regardless of any precedences; for example `a+b/c+d` renders with
the bare fraction between the `+` signs. -/
theorem c5_divide_fraction (t : Token) (l r : Expression) (ls rs : String)
    (hl : l.prettyMath = .ok ls) (hr : r.prettyMath = .ok rs) :
    (Expression.divide t l r).prettyMath
      = .ok ("\\frac\x7b" ++ ls ++ "\x7d\x7b" ++ rs ++ "\x7d")
    ∧ parseAndRender "a+b/c+d" = .ok "a+\\frac\x7bb\x7d\x7bc\x7d+d" := by
  refine ⟨?_, rfl⟩
  rw [Expression.prettyMath, hl, hr]

/-- Witness for C5 at concrete children `a` and `b`. -/
theorem c5_divide_fraction_witness :
    (Expression.divide ⟨"/", 1, .operator⟩ (.identifier ⟨"a", 0, .identifier⟩)
        (.identifier ⟨"b", 2, .identifier⟩)).prettyMath
      = .ok ("\\frac\x7b" ++ "a" ++ "\x7d\x7b" ++ "b" ++ "\x7d")
    ∧ parseAndRender "a+b/c+d" = .ok "a+\\frac\x7bb\x7d\x7bc\x7d+d" :=
  c5_divide_fraction ⟨"/", 1, .operator⟩ (.identifier ⟨"a", 0, .identifier⟩)
    (.identifier ⟨"b", 2, .identifier⟩) "a" "b" rfl rfl

/-- Claim C6.  The claim states that rendering an identifier returns the
text verbatim for a single Latin letter, the backslash-prefixed name for
the 48 Greek letter names, and fails with FormatError for every other
text.  The first two parts hold (`x`, `theta`), and a name like `foo`
does fail; but the code looks the text up with `GreekLetters[text]`, which
also finds the properties a JS object literal inherits from
`Object.prototype`, so the input `constructor` renders as
`\constructor` instead of failing.  This theorem evaluates the code at
that failing input. -/
theorem c6_identifier_rendering_behavior :
    parseAndRender "x" = .ok "x"
    ∧ parseAndRender "theta" = .ok "\\theta"
    ∧ parseAndRender "foo" = .error (.jsError ⟨"FormatError",
        "The identifier foo is not valid. Must be a Latin letter or the name of a Greek letter.",
        some ⟨"foo", 0, .identifier⟩⟩)
    ∧ parseAndRender "constructor" = .ok "\\constructor" :=
  ⟨rfl, rfl, rfl, rfl⟩

/-- Claim C7.  `Parse` succeeds only if every token is consumed: whenever
the top-level `expr` leaves a token stream starting with `t`, `Parse`
fails with a SyntaxError referencing `t`; an unexpected token where an
atom is expected yields a SyntaxError referencing that token
(`parse "2+*3"` references the `*` token); premature end of input yields a
SyntaxError carrying no token (`parse "2+"`). -/
theorem c7_syntax_error_location (f : Nat) (toks : List Token) (e : Expression)
    (t : Token) (rest : List Token)
    (h : parseExpr f toks = .ok (e, t :: rest)) :
    parserParse f toks = .error (.jsError ⟨"SyntaxError", "Syntax error", some t⟩)
    ∧ parse "2+*3" = .error (.jsError ⟨"SyntaxError",
        "Expected identifier, number, function, or parenthesized expression.",
        some ⟨"*", 2, .operator⟩⟩)
    ∧ parse "2+" = .error (.jsError ⟨"SyntaxError",
        "Unexpected end of expression", none⟩) :=
  ⟨parserParse_trailing h, rfl, rfl⟩

/-- Witness for C7 on the input `2 3`, whose top-level `expr` consumes
only the `2` token. -/
theorem c7_syntax_error_location_witness :
    parserParse (fuelFor (lexString "2 3")) (lexString "2 3")
      = .error (.jsError ⟨"SyntaxError", "Syntax error", some ⟨"3", 2, .number⟩⟩)
    ∧ parse "2+*3" = .error (.jsError ⟨"SyntaxError",
        "Expected identifier, number, function, or parenthesized expression.",
        some ⟨"*", 2, .operator⟩⟩)
    ∧ parse "2+" = .error (.jsError ⟨"SyntaxError",
        "Unexpected end of expression", none⟩) :=
  c7_syntax_error_location (fuelFor (lexString "2 3")) (lexString "2 3")
    (.number ⟨"2", 0, .number⟩) ⟨"3", 2, .number⟩ [] rfl

/-- Claim C8.  A parenthesized atom returns the inner expression directly
with no additional node: for every string `s` on which `parse` succeeds,
`parse ("(" ++ s ++ ")")` succeeds with a structurally equal AST (equal
after erasing token offsets, which necessarily shift by one). -/
theorem c8_paren_atom_transparent (s : String) (A : Expression)
    (h : parse s = .ok A) :
    ∃ B, parse ("(" ++ s ++ ")") = .ok B ∧ B.strip = A.strip := by
  simp only [parse] at h
  have h1 : parseExpr (fuelFor (lexString s)) (lexString s) = .ok (A, []) :=
    parserParse_ok_inv h
  have h2 : parseExpr (fuelFor (lexString s)) ((lexString s).map stripT)
      = .ok (A.strip, []) := by
    have hmap := (mapAt stripT_preserves (fuelFor (lexString s))).1 (lexString s)
    rw [h1] at hmap
    simpa [mapPRes, Expression.strip] using hmap
  have hlex := lexString_paren_strip s
  have hlen2 : (lexString ("(" ++ s ++ ")")).length = (lexString s).length + 2 := by
    have hc := congrArg List.length hlex
    simpa using hc
  have h3 : parseExpr (fuelFor (lexString s) + 12)
      ((lexString s).map stripT ++ [mkToken ")" 0])
      = .ok (A.strip, [mkToken ")" 0]) := by
    have hmono : parseExpr (fuelFor (lexString s) + 12) ((lexString s).map stripT)
        = .ok (A.strip, []) := parseExpr_mono (Nat.le_add_right _ _) h2
    have happ := (appendAt (fuelFor (lexString s) + 12)).1 ((lexString s).map stripT)
      [mkToken ")" 0] _ _ (by simp only [StopSuffix, goodStop]; decide) hmono
    simpa using happ
  have h4 : parseExpr (fuelFor (lexString s) + 12 + 1 + 1 + 1 + 1)
      (mkToken "(" 0 :: ((lexString s).map stripT ++ [mkToken ")" 0]))
      = .ok (A.strip, []) := parseExpr_paren_wrap h3
  have h5 : parserParse (fuelFor (lexString s) + 16)
      ((lexString ("(" ++ s ++ ")")).map stripT) = .ok A.strip := by
    rw [hlex]
    have hfe : fuelFor (lexString s) + 16
        = fuelFor (lexString s) + 12 + 1 + 1 + 1 + 1 := by omega
    rw [hfe]
    exact parserParse_ok h4
  have h6 := parserParse_map stripT_preserves (fuelFor (lexString s) + 16)
    (lexString ("(" ++ s ++ ")"))
  rw [h5] at h6
  cases hp : parserParse (fuelFor (lexString s) + 16) (lexString ("(" ++ s ++ ")")) with
  | error pe => rw [hp] at h6; exact Except.noConfusion h6
  | ok A2 =>
    rw [hp] at h6
    refine ⟨A2, ?_, ?_⟩
    · simp only [parse]
      have hF2 : fuelFor (lexString ("(" ++ s ++ ")"))
          = fuelFor (lexString s) + 16 := by
        simp only [fuelFor, hlen2]
        omega
      rw [hF2]
      exact hp
    · simp only [Except.ok.injEq] at h6
      rw [Expression.strip]
      exact h6.symm

/-- Witness for C8: `parse "(x)"` equals `parse "x"` up to token offsets. -/
theorem c8_paren_atom_transparent_witness :
    ∃ B, parse ("(" ++ "x" ++ ")") = .ok B
      ∧ B.strip = (Expression.identifier ⟨"x", 0, .identifier⟩).strip :=
  c8_paren_atom_transparent "x" (.identifier ⟨"x", 0, .identifier⟩) rfl

/-- Claim C9.  Lexing is total (the tokenizer is a total function to a
plain token list, with no error outcome) and no non-whitespace character
is dropped: concatenating the texts of the produced tokens yields exactly
the non-whitespace characters of the input, in order.  The matching
priority — numeric literal, then identifier, then a single non-whitespace
character as a one-character operator token, whitespace skipped — is the
definition of `lexAux`, translated from the source regex alternation. -/
theorem c9_lexer_total_coverage (s : String) :
    ((lexString s).map (fun t => t.text.data)).flatten
      = s.data.filter (fun c => !isWs c) :=
  lexAux_flatten s.data.length s.data 0 (Nat.le_refl _)

/-- Claim C10.  For every input string on which `parse` succeeds, every
`Expression_Function` node in the returned AST has an argument list of
length exactly one, because the function-call rule in `ParseAtom` builds
the argument list from a single `expr`. -/
theorem c10_function_nodes_unary (s : String) (A : Expression)
    (h : parse s = .ok A) : A.funcUnary = true := by
  simp only [parse] at h
  exact (funcUnaryAt _).1 _ _ _ (parserParse_ok_inv h)

/-- Witness for C10 on the input `sqrt(x)`. -/
theorem c10_function_nodes_unary_witness :
    (Expression.function ⟨"sqrt", 0, .identifier⟩
      [.identifier ⟨"x", 5, .identifier⟩]).funcUnary = true :=
  c10_function_nodes_unary "sqrt(x)"
    (Expression.function ⟨"sqrt", 0, .identifier⟩
      [.identifier ⟨"x", 5, .identifier⟩]) rfl

end ExprJs
